import Mathlib

/-!
# Cytopia: clock service, map boundaries, cell height, iso/screen conversion

A shallow embedding of `src/services/GameClock.hxx`, `src/map.cxx` and
`src/engine/cell.cxx`, followed by the properties proved about them.

Conventions of the embedding
* `std::deque<Task>` is a `List Task`; index `0` is `front()`.
* `std::function<void(void)>` callbacks are opaque to the scheduler: a callback
  is represented by an identifier, and invoking it is recorded by listing the
  task that fired. Effects of a callback on the clock itself are not modelled.
* `Clock::now()` is an input of the operations that read the clock.
* wall-clock instants and spans are rationals counting milliseconds, so every
  integral clock period is represented exactly.
* `float` and `double` are the IEEE 754 formats binary32 and binary64 and `int`
  is 32 bits wide; an expression whose behaviour is undefined has no result.
-/

namespace Cytopia

/-! ## `GameClock.hxx`: types and constants -/

namespace GameClock

/-- The alias `using TimePoint = std::chrono::time_point<Clock>`: milliseconds since the
clock's epoch. The header also uses `TimePoint` for periods. -/
abbrev TimePoint := ℚ

/-- The alias `using ClockCbk = std::function<void(void)>`: the identity of a callback. -/
abbrev ClockCbk := Nat

/-- The alias `using ClockTaskHndl = unsigned long`. Handles are natural
numbers here: the specification leaves the exhaustion of the handle space out
of scope (4.1, 9: "assume handle space is effectively unbounded"), so no
handle is the result of a wrap-around. -/
abbrev ClockTaskHndl := Nat

/-- The alias `using GameClockTime = unsigned long`: a count of game ticks. -/
abbrev GameClockTime := Nat

/-- The constant `const unsigned int DefaultGameTickDuration = 2000` (milliseconds). -/
def DefaultGameTickDuration : Nat := 2000

/-- The constant `static const GameClockTime GameMinut = 1`. -/
def GameMinut : GameClockTime := 1

/-- The constant `static const GameClockTime GameHour = 60 * GameMinut`. -/
def GameHour : GameClockTime := 60 * GameMinut

/-- The constant `static const GameClockTime GameDay = 24 * GameHour`. -/
def GameDay : GameClockTime := 24 * GameHour

/-- The constant `static constexpr ClockTaskHndl ClockTaskHndlInvalid = ClockTaskHndl(0)`. -/
def ClockTaskHndlInvalid : ClockTaskHndl := 0

/-- The constant `static constexpr TimePoint TimePointZero = TimePoint{0s}`. -/
def TimePointZero : TimePoint := 0

/-- The record `struct RealTimeClockTask`. -/
structure RealTimeClockTask where
  callback : ClockCbk
  m_waketime : TimePoint
  m_period : TimePoint
  hndl : ClockTaskHndl
deriving DecidableEq

/-- The comparison `operator>(const RealTimeClockTask &rt1, const RealTimeClockTask &rt2)`:
`rt1.m_waketime > rt2.m_waketime`. -/
def RealTimeClockTask.gt (rt1 rt2 : RealTimeClockTask) : Bool :=
  decide (rt1.m_waketime > rt2.m_waketime)

/-- The record `struct GameTimeClockTask`. -/
structure GameTimeClockTask where
  callback : ClockCbk
  m_waketime : GameClockTime
  m_period : GameClockTime
  hndl : ClockTaskHndl
deriving DecidableEq

/-- The comparison `operator>(const GameTimeClockTask &gt1, const GameTimeClockTask &gt2)`:
`gt1.m_waketime > gt2.m_waketime`. -/
def GameTimeClockTask.gt (gt1 gt2 : GameTimeClockTask) : Bool :=
  decide (gt1.m_waketime > gt2.m_waketime)

/-! ## `RemovablePriorityQueue<Task>`

The class derives from
`std::priority_queue<Task, std::deque<Task>, std::greater<Task>>`, so the
container is a binary heap kept by `std::push_heap` / `std::pop_heap` with
the comparison `comp(a, b) = a > b`. The standard fixes what these algorithms
achieve (the range is a heap of the same elements); they are embedded here in
their usual sift-up / sift-down form. The comparison is passed as `comp`, the
way the template receives `std::greater<Task>`. -/

section Queue

variable {Task : Type}

/-- The two elements at positions `i` and `j` exchanged (`std::iter_swap`);
nothing happens when a position is outside the container. -/
def swapAt (q : List Task) (i j : Nat) : List Task :=
  match q[i]?, q[j]? with
  | some a, some b => (q.set i b).set j a
  | _, _ => q

/-- The loop of `std::push_heap`: the element at `i` moves up while its parent
compares `comp(parent, element)`. The first argument bounds the number of
iterations; `i` itself is always enough, since each iteration moves to the
parent `(i - 1) / 2`. -/
def siftUp (comp : Task → Task → Bool) : Nat → List Task → Nat → List Task
  | 0, q, _ => q
  | fuel + 1, q, i =>
    if i = 0 then q
    else
      match q[(i - 1) / 2]?, q[i]? with
      | some parent, some value =>
        if comp parent value then siftUp comp fuel (swapAt q ((i - 1) / 2) i) ((i - 1) / 2)
        else q
      | _, _ => q

/-- The index of the child of `i` that the sift-down loop looks at: the right
child `2 * i + 2` when it exists and `comp(left, right)` holds, otherwise the
left child `2 * i + 1`. -/
def pickChild (comp : Task → Task → Bool) (q : List Task) (i : Nat) : Nat :=
  match q[2 * i + 1]?, q[2 * i + 2]? with
  | some left, some right => if comp left right then 2 * i + 2 else 2 * i + 1
  | _, _ => 2 * i + 1

/-- The loop of `std::pop_heap` / `std::make_heap`: the element at `i` moves
down while `comp(element, child)` holds for the child picked by `pickChild`.
The first argument bounds the number of iterations; `q.length - i` is always
enough, since each iteration moves to a larger index. -/
def siftDown (comp : Task → Task → Bool) : Nat → List Task → Nat → List Task
  | 0, q, _ => q
  | fuel + 1, q, i =>
    match q[i]?, q[pickChild comp q i]? with
    | some value, some child =>
      if comp value child then
        siftDown comp fuel (swapAt q i (pickChild comp q i)) (pickChild comp q i)
      else q
    | _, _ => q

/-- The member `priority_queue::top()`: `c.front()`; `none` on an empty queue. -/
def top (q : List Task) : Option Task := q.head?

/-- The member `priority_queue::push(x)`: `c.push_back(x)` and then `std::push_heap`. -/
def push (comp : Task → Task → Bool) (q : List Task) (x : Task) : List Task :=
  siftUp comp q.length (q ++ [x]) q.length

/-- The member `priority_queue::pop()`: `std::pop_heap` (the front goes to the back and the
rest is made a heap again) and then `c.pop_back()`. Popping an empty queue is
left as the empty queue. -/
def pop (comp : Task → Task → Bool) (q : List Task) : List Task :=
  siftDown comp (q.length - 1) (swapAt q 0 (q.length - 1)).dropLast 0

/-- Pushing a sequence of tasks, first to last, starting from `q`. -/
def pushAll (comp : Task → Task → Bool) (q : List Task) (xs : List Task) : List Task :=
  xs.foldl (push comp) q

/-- Repeatedly taking `top()` and then `pop()`, at most `n` times, listing the
tasks in the order they come out. -/
def popAll (comp : Task → Task → Bool) : Nat → List Task → List Task
  | 0, _ => []
  | n + 1, q =>
    match top q with
    | none => []
    | some t => t :: popAll comp n (pop comp q)

/-- The queue emptied by `top()` / `pop()` until `empty()`. -/
def drain (comp : Task → Task → Bool) (q : List Task) : List Task :=
  popAll comp q.length q

/-- The predicate `std::is_heap` for the comparison `comp`: no element at a
position `j > 0` has a parent, the element at `(j - 1) / 2`, with
`comp(parent, element)`. -/
def IsHeap (comp : Task → Task → Bool) (q : List Task) : Prop :=
  ∀ j, 0 < j → ∀ a b, q[(j - 1) / 2]? = some a → q[j]? = some b → comp a b = false

/-- The key of the element at position `i`, and `⊤` past the end. -/
def keyAt {K : Type} (key : Task → K) (q : List Task) (i : Nat) : WithTop K :=
  match q[i]? with
  | some a => (key a : WithTop K)
  | none => ⊤

/-- The algorithm `std::make_heap`: the elements at `q.length / 2 - 1`, ..., `1`, `0` are
sifted down, in this order. -/
def makeHeap (comp : Task → Task → Bool) (q : List Task) : List Task :=
  (List.range (q.length / 2)).foldr (fun i acc => siftDown comp (acc.length - i) acc i) q

/-- Modelled from the spec: `RemovablePriorityQueue::remove(hndl)` is declared in
`GameClock.hxx` and defined in `GameClock.inl.hxx`, which is not among the
sources. The spec: "O(n) scan to locate, then re-heapify; returns whether a
matching task was found". The first task whose handle is `hndl` is erased and
the rest is made a heap again; `hndlOf` reads the member `hndl` of a task. -/
def remove (comp : Task → Task → Bool) (hndlOf : Task → ClockTaskHndl) (q : List Task)
    (hndl : ClockTaskHndl) : Bool × List Task :=
  if q.any (fun t => hndlOf t == hndl) then
    (true, makeHeap comp (q.eraseP (fun t => hndlOf t == hndl)))
  else (false, q)

/-- Modelled from the spec: `RemovablePriorityQueue::clear()` is declared in
`GameClock.hxx` and defined in `GameClock.inl.hxx`, which is not among the
sources. The spec: "drops all tasks". -/
def clearQueue (_q : List Task) : List Task := []

/-- Modelled from the spec: the loop of `tick` over one task store, whose code
(`GameClock.cxx`) is not among the sources. The spec, 4.3: "while the store is
non-empty and its minimum wake-key ≤ now: pop the task, release the lock,
invoke its callback, reacquire the lock; if period > 0, push a continuation
[...]; otherwise discard."
`due` tells whether a task's wake-key is `≤ now`, `rearm` gives the
continuation of a periodic task and `none` for a one-shot task. The result is
the store and the tasks whose callbacks were invoked, in order. The first
argument bounds the number of iterations. -/
def tickTaskLoop (comp : Task → Task → Bool) (due : Task → Bool) (rearm : Task → Option Task) :
    Nat → List Task → List Task → List Task × List Task
  | 0, q, fired => (q, fired)
  | fuel + 1, q, fired =>
    match top q with
    | none => (q, fired)
    | some task =>
      if due task then
        match rearm task with
        | some next => tickTaskLoop comp due rearm fuel (push comp (pop comp q) next) (fired ++ [task])
        | none => tickTaskLoop comp due rearm fuel (pop comp q) (fired ++ [task])
      else (q, fired)

end Queue

/-! ## The clock service -/

/-- Modelled from the spec: whether a real-time task is due, "minimum wake-key ≤
now" in the loop of `tick` (`GameClock.cxx`, not among the sources). -/
def RealTimeClockTask.due (now : TimePoint) (t : RealTimeClockTask) : Bool :=
  decide (t.m_waketime ≤ now)

/-- Modelled from the spec: the continuation of a real-time task fired by the
loop of `tick` at `now` (`GameClock.cxx`, not among the sources). A one-shot
task has none: "a task with period = zero is removed from its store
immediately after it fires". For a periodic task the spec gives two accounts
of the new wake-key. In 3, 8 and the glossary it is the old wake-key plus
exactly one period: "re-inserted with a new wake-key = old wake-key + period",
"advancing its wake-key by exactly one period". In 4.3 it is "(old wakeTime +
period) — advanced repeatedly by whole periods if more than one period has
elapsed, to prevent catch-up storms": when more than one period has elapsed
since the old wake-key, the new one is the first of `old + period`,
`old + 2 * period`, ... that is after `now`. `skipMissed` selects the account
of 4.3. -/
def RealTimeClockTask.rearm (skipMissed : Bool) (now : TimePoint) (t : RealTimeClockTask) :
    Option RealTimeClockTask :=
  if t.m_period > TimePointZero then
    if skipMissed = true ∧ t.m_period < now - t.m_waketime then
      some { t with
        m_waketime := t.m_waketime + (⌊(now - t.m_waketime) / t.m_period⌋ + 1) * t.m_period }
    else some { t with m_waketime := t.m_waketime + t.m_period }
  else none

/-- A bound on the number of times the callback of `t` is invoked by one pass
of the loop at `now`: none when `t` is not due, one for a due one-shot task,
and one per period boundary up to `now` for a due periodic task. -/
def RealTimeClockTask.pending (now : TimePoint) (t : RealTimeClockTask) : Nat :=
  if t.m_waketime ≤ now then
    if t.m_period > TimePointZero then ((now - t.m_waketime) / t.m_period).floor.toNat + 1 else 1
  else 0

/-- Modelled from the spec: whether a game-time task is due, the loop of `tick`
"keyed on gameTickCount instead of wall time". -/
def GameTimeClockTask.due (now : GameClockTime) (t : GameTimeClockTask) : Bool :=
  decide (t.m_waketime ≤ now)

/-- Modelled from the spec: the continuation of a game-time task fired by the
loop of `tick` at game tick `now` (`GameClock.cxx`, not among the sources),
"the same pop/reinsert discipline" as for real-time tasks, with the same two
accounts of the new wake-key: the old one plus one period, or, with
`skipMissed`, the first of `old + period`, `old + 2 * period`, ... after `now`
when more than one period has elapsed. -/
def GameTimeClockTask.rearm (skipMissed : Bool) (now : GameClockTime) (t : GameTimeClockTask) :
    Option GameTimeClockTask :=
  if t.m_period > 0 then
    if skipMissed = true ∧ t.m_period < now - t.m_waketime then
      some { t with
        m_waketime := t.m_waketime + ((now - t.m_waketime) / t.m_period + 1) * t.m_period }
    else some { t with m_waketime := t.m_waketime + t.m_period }
  else none

/-- A bound on the number of times the callback of `t` is invoked by one pass
of the loop at game tick `now`. -/
def GameTimeClockTask.pending (now : GameClockTime) (t : GameTimeClockTask) : Nat :=
  if t.m_waketime ≤ now then
    if t.m_period > 0 then (now - t.m_waketime) / t.m_period + 1 else 1
  else 0

/-- Modelled from the spec: draining the real-time store at `now`. The loop runs
until the store is empty or its top is not due; the bound handed to
`tickTaskLoop` is at least the number of invocations that takes. -/
def tickRealTimeTasks (skipMissed : Bool) (now : TimePoint) (q : List RealTimeClockTask) :
    List RealTimeClockTask × List RealTimeClockTask :=
  tickTaskLoop RealTimeClockTask.gt (RealTimeClockTask.due now)
    (RealTimeClockTask.rearm skipMissed now) (q.map (RealTimeClockTask.pending now)).sum q []

/-- Modelled from the spec: draining the game-time store at game tick `now`. -/
def tickGameTimeTasks (skipMissed : Bool) (now : GameClockTime) (q : List GameTimeClockTask) :
    List GameTimeClockTask × List GameTimeClockTask :=
  tickTaskLoop GameTimeClockTask.gt (GameTimeClockTask.due now)
    (GameTimeClockTask.rearm skipMissed now) (q.map (GameTimeClockTask.pending now)).sum q []

end GameClock

open GameClock in
/-- The data members of `class GameClock`. `m_lock` has no counterpart: the
operations are embedded as atomic steps, one after the other.
`m_gameTickDuration` is a `Clock::duration`, here in milliseconds; it is
positive in every state of the service (the initial 2000 ms, and afterwards
2000 ms divided by a positive speed factor). `m_gameTicks` is kept as a natural
number: the wrap-around of the tick counter is outside the model. -/
structure GameClock where
  m_realTimeTasks : List RealTimeClockTask
  m_gameTimeTasks : List GameTimeClockTask
  m_unique_handle : ClockTaskHndl
  m_gameTicks : GameClockTime
  m_lastGameTickTime : TimePoint
  m_gameTickDuration : ℚ
  m_gameTickDuration_pos : 0 < m_gameTickDuration

namespace GameClock

/-- The member initialisers of the header: empty stores, `m_unique_handle = 0U`,
`m_gameTicks = 0U`, `m_gameTickDuration = milliseconds(DefaultGameTickDuration)`.
`m_lastGameTickTime` has no initialiser in the header; `start` is its value
when the service starts. -/
def init (start : TimePoint) : GameClock where
  m_realTimeTasks := []
  m_gameTimeTasks := []
  m_unique_handle := 0
  m_gameTicks := 0
  m_lastGameTickTime := start
  m_gameTickDuration := DefaultGameTickDuration
  m_gameTickDuration_pos := by norm_num [DefaultGameTickDuration]

/-- Modelled from the spec: the handle allocator on the member
`m_unique_handle`; the code that advances it (`GameClock.cxx`,
`GameClock.inl.hxx`) is not among the sources. The spec, 4.1: "`next()` returns
a previously-unissued non-zero handle; calls are monotonically increasing under
the service's lock. No explicit reclamation — overflow after exhausting the
handle space is out of scope"; 9: "assume handle space is effectively
unbounded". The next handle is one more than the last one issued. -/
def nextHandle (h : ClockTaskHndl) : ClockTaskHndl := h + 1

/-- Modelled from the spec: `addRealTimeClockTask(cbk, delay, period)`, declared
in `GameClock.hxx` and defined in `GameClock.inl.hxx`, which is not among the
sources. The spec: "allocate handle; wakeTime = now + delay; push into
Real-Time Task Store under the lock; return handle. Failure: if delay or
period is negative, return the invalid handle and register nothing."
`now` is the reading of `Clock::now()`. -/
def addRealTimeClockTask (now : TimePoint) (s : GameClock) (cbk : ClockCbk)
    (delay period : TimePoint) : ClockTaskHndl × GameClock :=
  if delay < TimePointZero ∨ period < TimePointZero then (ClockTaskHndlInvalid, s)
  else
    (nextHandle s.m_unique_handle,
      { s with
        m_unique_handle := nextHandle s.m_unique_handle
        m_realTimeTasks := push RealTimeClockTask.gt s.m_realTimeTasks
          ⟨cbk, now + delay, period, nextHandle s.m_unique_handle⟩ })

/-- Modelled from the spec: `addGameTimeClockTask(cbk, delay, period)`, declared
in `GameClock.hxx` and defined in `GameClock.cxx`, which is not among the
sources. The spec: "wakeTick = gameTickCount + delayTicks; allocate handle;
push into Game-Time Task Store; return handle." -/
def addGameTimeClockTask (s : GameClock) (cbk : ClockCbk)
    (delay period : GameClockTime) : ClockTaskHndl × GameClock :=
  (nextHandle s.m_unique_handle,
    { s with
      m_unique_handle := nextHandle s.m_unique_handle
      m_gameTimeTasks := push GameTimeClockTask.gt s.m_gameTimeTasks
        ⟨cbk, s.m_gameTicks + delay, period, nextHandle s.m_unique_handle⟩ })

/-- Modelled from the spec: `setGameClockSpeed(speedFactor)`, declared in
`GameClock.hxx` and defined in `GameClock.cxx`, which is not among the sources.
The spec: "factor must be > 0; rejected (no-op) otherwise. Effective tick
duration = gameTickDuration / factor". The header keeps one duration,
`m_gameTickDuration` ("the current game tick duration"), so the effective
duration is stored there. The `float` factor is an exact rational here. -/
def setGameClockSpeed (s : GameClock) (speedFactor : ℚ) : GameClock :=
  if h : 0 < speedFactor then
    { s with
      m_gameTickDuration := DefaultGameTickDuration / speedFactor
      m_gameTickDuration_pos := div_pos (by norm_num [DefaultGameTickDuration]) h }
  else s

/-- Modelled from the spec: `clear()`, declared in `GameClock.hxx` and defined
in `GameClock.cxx`, which is not among the sources. The spec: "empties both
stores". -/
def clear (s : GameClock) : GameClock :=
  { s with
    m_realTimeTasks := clearQueue s.m_realTimeTasks
    m_gameTimeTasks := clearQueue s.m_gameTimeTasks }

/-- Modelled from the spec: `removeClockTask(hndl)`, declared in `GameClock.hxx`
and defined in `GameClock.cxx`, which is not among the sources. The spec:
"attempts removal from the real-time store, then (if not found) the game-time
store; returns true iff a task was found and removed". -/
def removeClockTask (s : GameClock) (hndl : ClockTaskHndl) : Bool × GameClock :=
  if (remove RealTimeClockTask.gt RealTimeClockTask.hndl s.m_realTimeTasks hndl).1 then
    (true, { s with
      m_realTimeTasks := (remove RealTimeClockTask.gt RealTimeClockTask.hndl s.m_realTimeTasks hndl).2 })
  else
    ((remove GameTimeClockTask.gt GameTimeClockTask.hndl s.m_gameTimeTasks hndl).1,
      { s with
        m_gameTimeTasks :=
          (remove GameTimeClockTask.gt GameTimeClockTask.hndl s.m_gameTimeTasks hndl).2 })

/-- Modelled from the spec: the advance of the game-tick counter in `tick`
(`GameClock.cxx`, not among the sources). The spec: "while elapsed ≥
effective: gameTickCount += 1; lastAdvanceTime += effective; elapsed −=
effective". The result is the counter and the time of the last advance. The
first argument bounds the number of iterations. -/
def advanceLoop (effective : ℚ) : Nat → ℚ → GameClockTime → TimePoint → GameClockTime × TimePoint
  | 0, _, gameTicks, lastGameTickTime => (gameTicks, lastGameTickTime)
  | fuel + 1, elapsed, gameTicks, lastGameTickTime =>
    if elapsed ≥ effective then
      advanceLoop effective fuel (elapsed - effective) (gameTicks + 1) (lastGameTickTime + effective)
    else (gameTicks, lastGameTickTime)

/-- Modelled from the spec: the game-tick advance of `tick(now)`: "compute
elapsed = now − lastAdvanceTime" and run the loop until `elapsed < effective`;
for a positive duration that takes `⌊elapsed / effective⌋` iterations. -/
def advanceGameTicks (now : TimePoint) (s : GameClock) : GameClockTime × TimePoint :=
  advanceLoop s.m_gameTickDuration
    ((now - s.m_lastGameTickTime) / s.m_gameTickDuration).floor.toNat
    (now - s.m_lastGameTickTime) s.m_gameTicks s.m_lastGameTickTime

/-- What one call of `tick` leaves behind: the clock and the tasks whose
callbacks were invoked, in order, on each timeline. -/
structure TickResult where
  clock : GameClock
  firedRealTime : List RealTimeClockTask
  firedGameTime : List GameTimeClockTask

/-- Modelled from the spec: `tick()`, declared in `GameClock.hxx` and defined in
`GameClock.cxx`, which is not among the sources. The spec: "`tick` (a) drains
and fires due real-time tasks, re-arming periodic ones; (b) advances the
simulated game-tick counter by however many whole scaled ticks have elapsed
since the last advance, then (c) drains and fires due game-time tasks,
re-arming periodic ones." `now` is the reading of `Clock::now()`; `skipMissed`
selects the account of re-arming (see `RealTimeClockTask.rearm`). -/
def tick (skipMissed : Bool) (now : TimePoint) (s : GameClock) : TickResult :=
  { clock :=
      { s with
        m_realTimeTasks := (tickRealTimeTasks skipMissed now s.m_realTimeTasks).1
        m_gameTicks := (advanceGameTicks now s).1
        m_lastGameTickTime := (advanceGameTicks now s).2
        m_gameTimeTasks :=
          (tickGameTimeTasks skipMissed (advanceGameTicks now s).1 s.m_gameTimeTasks).1 }
    firedRealTime := (tickRealTimeTasks skipMissed now s.m_realTimeTasks).2
    firedGameTime :=
      (tickGameTimeTasks skipMissed (advanceGameTicks now s).1 s.m_gameTimeTasks).2 }

/-- One call of `tick` after the other, at the clock readings `nows`, with the
fired tasks of all the calls, in order. -/
def tickAll (skipMissed : Bool) : List TimePoint → GameClock → TickResult
  | [], s => { clock := s, firedRealTime := [], firedGameTime := [] }
  | now :: nows, s =>
    { clock := (tickAll skipMissed nows (tick skipMissed now s).clock).clock
      firedRealTime := (tick skipMissed now s).firedRealTime
        ++ (tickAll skipMissed nows (tick skipMissed now s).clock).firedRealTime
      firedGameTime := (tick skipMissed now s).firedGameTime
        ++ (tickAll skipMissed nows (tick skipMissed now s).clock).firedGameTime }

/-- Whether a task with handle `hndl` is held in the real-time store or in the
game-time store. -/
def holdsTask (s : GameClock) (hndl : ClockTaskHndl) : Bool :=
  s.m_realTimeTasks.any (fun t => t.hndl == hndl) || s.m_gameTimeTasks.any (fun t => t.hndl == hndl)

/-- The number of tasks with handle `hndl` held in the two stores together. -/
def tasksWithHandle (s : GameClock) (hndl : ClockTaskHndl) : Nat :=
  s.m_realTimeTasks.countP (fun t => t.hndl == hndl)
    + s.m_gameTimeTasks.countP (fun t => t.hndl == hndl)

/-- A registration request: the arguments of one call of `addRealTimeClockTask`
(with the reading of the clock) or of `addGameTimeClockTask`. -/
inductive Registration where
  | realTime (now : TimePoint) (cbk : ClockCbk) (delay period : TimePoint)
  | gameTime (cbk : ClockCbk) (delay period : GameClockTime)

/-- Whether the registration is a successful one: `addRealTimeClockTask` fails
on a negative delay or period, `addGameTimeClockTask` has no failure. -/
def Registration.succeeds : Registration → Bool
  | .realTime _ _ delay period => decide (TimePointZero ≤ delay) && decide (TimePointZero ≤ period)
  | .gameTime _ _ _ => true

/-- The call that a registration request stands for. -/
def register (s : GameClock) : Registration → ClockTaskHndl × GameClock
  | .realTime now cbk delay period => addRealTimeClockTask now s cbk delay period
  | .gameTime cbk delay period => addGameTimeClockTask s cbk delay period

/-- The registrations `rs` made one after the other: the handles returned, in
order, and the clock afterwards. -/
def registerAll : GameClock → List Registration → List ClockTaskHndl × GameClock
  | s, [] => ([], s)
  | s, r :: rs =>
    ((register s r).1 :: (registerAll (register s r).2 rs).1,
      (registerAll (register s r).2 rs).2)

/-- A call of one of the public member functions of `GameClock`, with its
arguments (and the reading of `Clock::now()` where the function takes one). -/
inductive Call where
  | addRealTimeClockTask (now : TimePoint) (cbk : ClockCbk) (delay period : TimePoint)
  | addGameTimeClockTask (cbk : ClockCbk) (delay period : GameClockTime)
  | setGameClockSpeed (speedFactor : ℚ)
  | clear
  | removeClockTask (hndl : ClockTaskHndl)
  | tick (now : TimePoint)

/-- The clock after a call. -/
def call (skipMissed : Bool) (s : GameClock) : Call → GameClock
  | .addRealTimeClockTask now cbk delay period => (addRealTimeClockTask now s cbk delay period).2
  | .addGameTimeClockTask cbk delay period => (addGameTimeClockTask s cbk delay period).2
  | .setGameClockSpeed speedFactor => setGameClockSpeed s speedFactor
  | .clear => clear s
  | .removeClockTask hndl => (removeClockTask s hndl).2
  | .tick now => (tick skipMissed now s).clock

/-- The clock after a sequence of calls, made one after the other. -/
def callAll (skipMissed : Bool) : GameClock → List Call → GameClock
  | s, [] => s
  | s, op :: ops => callAll skipMissed (call skipMissed s op) ops

/-- The handles of the tasks held in the two stores. -/
def handlesOf (s : GameClock) : List ClockTaskHndl :=
  s.m_realTimeTasks.map RealTimeClockTask.hndl ++ s.m_gameTimeTasks.map GameTimeClockTask.hndl

/-- The handles of the tasks held in the two stores are pairwise distinct and
none is above the handle counter. -/
def HandlesUnique (s : GameClock) : Prop :=
  (handlesOf s).Nodup ∧ ∀ h ∈ handlesOf s, h ≤ s.m_unique_handle

end GameClock

/-! ## `basics/point.hxx`, `map.cxx`, `engine/cell.cxx` -/

/-- The class `Point` of `basics/point.hxx`, which is not among the sources:
the `int` members read by `getX()`, `getY()`, `getHeight()` and written by
`setCoords(x, y)`, `setHeight(h)`. -/
structure Point where
  x : Int
  y : Int
  height : Int
deriving DecidableEq

/-- The call `p.setCoords(x, y)`. -/
def Point.setCoords (p : Point) (x y : Int) : Point := { p with x := x, y := y }

/-- The call `p.setHeight(h)`. -/
def Point.setHeight (p : Point) (h : Int) : Point := { p with height := h }

/-! ### Floating-point and `int` arithmetic

`Map::getIsoCoords` and `Map::getScreenCoords` compute in `float` and `double`
and store the results in `int` variables. `float` and `double` are taken to be
the IEEE 754 formats binary32 and binary64, with every operation rounded to
nearest, ties to even, to the format of its type (no excess precision, no
fused multiply-add), and `int` to be 32 bits wide. Where the behaviour of the
C++ expression is undefined (a signed overflow, the conversion to `int` of a
value that is not finite or whose truncation is out of range), the embedding
yields `none`. -/

/-- A binary floating-point format of IEEE 754: the number of bits of the
significand (the implicit one included), the exponent of the least positive
value `2 ^ emin`, and the greatest exponent: the finite values are below
`2 ^ (emax + 1)` in magnitude. -/
structure FloatFormat where
  prec : Nat
  emin : Int
  emax : Int

/-- The type `float`: binary32. -/
def binary32 : FloatFormat := ⟨24, -149, 127⟩

/-- The type `double`: binary64. -/
def binary64 : FloatFormat := ⟨53, -1074, 1023⟩

/-- A floating-point datum: a finite value (`finite 0` is the positive zero),
the negative zero, an infinity with its sign, or a NaN. -/
inductive FloatVal where
  | finite (q : ℚ)
  | negZero
  | infinite (negative : Bool)
  | nan
deriving DecidableEq

namespace FloatVal

/-- Whether the datum is a NaN. -/
def isNaN : FloatVal → Bool
  | nan => true
  | _ => false

/-- Whether the datum is an infinity. -/
def isInfinite : FloatVal → Bool
  | infinite _ => true
  | _ => false

/-- Whether the datum is a zero, of either sign. -/
def isZero : FloatVal → Bool
  | finite q => decide (q = 0)
  | negZero => true
  | _ => false

/-- The sign bit of the datum. -/
def negative : FloatVal → Bool
  | finite q => decide (q < 0)
  | negZero => true
  | infinite s => s
  | nan => false

/-- The value of a finite datum (0 for the others). -/
def value : FloatVal → ℚ
  | finite q => q
  | _ => 0

/-- The value of a finite datum, and nothing for an infinity or a NaN. -/
def toRat? : FloatVal → Option ℚ
  | finite q => some q
  | negZero => some 0
  | _ => none

/-- The unary minus. -/
def neg : FloatVal → FloatVal
  | finite q => if q = 0 then negZero else finite (-q)
  | negZero => finite 0
  | infinite s => infinite (!s)
  | nan => nan

end FloatVal

/-- The integer nearest to `q`, the even one of the two when `q` is halfway
between them. -/
def roundHalfEven (q : ℚ) : Int :=
  if q - ⌊q⌋ < 1 / 2 then ⌊q⌋
  else if 1 / 2 < q - ⌊q⌋ then ⌊q⌋ + 1
  else if ⌊q⌋ % 2 = 0 then ⌊q⌋
  else ⌊q⌋ + 1

namespace FloatFormat

/-- The exponent of the unit in the last place of the values of the format
around `q`: the significand keeps `prec` bits from the leading bit of `q`
down, and the unit does not go below `2 ^ emin` (the subnormal range). -/
def ulpExponent (F : FloatFormat) (q : ℚ) : Int :=
  max (Int.log 2 |q| - ((F.prec : Int) - 1)) F.emin

/-- The rational `q` rounded to nearest, ties to even, to a multiple of the
unit in the last place, with an unbounded exponent range upwards. -/
def roundRat (F : FloatFormat) (q : ℚ) : ℚ :=
  roundHalfEven (q / 2 ^ F.ulpExponent q) * 2 ^ F.ulpExponent q

/-- The datum that an operation delivers when its exact result is `q`: `q`
rounded, an infinity when the rounded value is beyond the finite range, and a
zero with the sign of `q`, or with the sign `zeroNegative` when `q` is 0
exactly. -/
def deliver (F : FloatFormat) (zeroNegative : Bool) (q : ℚ) : FloatVal :=
  if (2 : ℚ) ^ (F.emax + 1) ≤ |F.roundRat q| then .infinite (decide (q < 0))
  else if F.roundRat q = 0 then
    if (if q = 0 then zeroNegative else decide (q < 0)) then .negZero else .finite 0
  else .finite (F.roundRat q)

/-- The conversion of an `int` to the format. -/
def ofInt (F : FloatFormat) (n : Int) : FloatVal := F.deliver false n

/-- The value of the format nearest to the rational `q`. -/
def ofRat (F : FloatFormat) (q : ℚ) : FloatVal := F.deliver false q

/-- The product `a * b` in the format. -/
def mul (F : FloatFormat) (a b : FloatVal) : FloatVal :=
  if a.isNaN || b.isNaN then .nan
  else if a.isInfinite || b.isInfinite then
    if a.isZero || b.isZero then .nan else .infinite (a.negative != b.negative)
  else F.deliver (a.negative != b.negative) (a.value * b.value)

/-- The quotient `a / b` in the format. -/
def div (F : FloatFormat) (a b : FloatVal) : FloatVal :=
  if a.isNaN || b.isNaN then .nan
  else if a.isInfinite then
    if b.isInfinite then .nan else .infinite (a.negative != b.negative)
  else if b.isInfinite then
    if a.negative != b.negative then .negZero else .finite 0
  else if b.isZero then
    if a.isZero then .nan else .infinite (a.negative != b.negative)
  else F.deliver (a.negative != b.negative) (a.value / b.value)

/-- The sum `a + b` in the format. -/
def add (F : FloatFormat) (a b : FloatVal) : FloatVal :=
  if a.isNaN || b.isNaN then .nan
  else if a.isInfinite then
    if b.isInfinite && (a.negative != b.negative) then .nan else a
  else if b.isInfinite then b
  else F.deliver (a.negative && b.negative) (a.value + b.value)

/-- The difference `a - b` in the format. -/
def sub (F : FloatFormat) (a b : FloatVal) : FloatVal := F.add a b.neg

/-- The rational `q` is a value of the format: rounding leaves it as it is and
it is within the finite range. -/
def Exact (F : FloatFormat) (q : ℚ) : Prop :=
  F.roundRat q = q ∧ |q| < (2 : ℚ) ^ (F.emax + 1)

end FloatFormat

/-- The integral part of a rational: the fractional part is discarded
(truncation toward zero), as in the conversion of a floating-point value to an
integer type. -/
def truncToInt (r : ℚ) : Int := if 0 ≤ r then ⌊r⌋ else ⌈r⌉

/-- The least value of `int`. -/
def INT_MIN : Int := -2 ^ 31

/-- The greatest value of `int`. -/
def INT_MAX : Int := 2 ^ 31 - 1

/-- The integer `n` as an `int`, when it is a value of the type. -/
def toInt? (n : Int) : Option Int := if INT_MIN ≤ n ∧ n ≤ INT_MAX then some n else none

/-- The conversion of a floating-point value to `int` on assignment: the value
truncated, when the datum is finite and the truncated value is a value of
`int`; the behaviour is undefined otherwise. -/
def FloatVal.toInt (a : FloatVal) : Option Int :=
  match a.toRat? with
  | some q => toInt? (truncToInt q)
  | none => none

/-- The sum of two `int` values; the behaviour is undefined on overflow. -/
def intAdd (a b : Int) : Option Int := toInt? (a + b)

/-- The data members of `class Map` that the functions below read. `_zoom` is a
`float`: the value it holds is `binary32.ofRat _zoom`. -/
structure Map where
  _width : Int
  _height : Int
  _cameraOffset : Point
  _zoom : ℚ

namespace Map

/-- The tile coordinates visited by the loops of the constructor `Map::Map`,
which adds a sprite at each, and of `Map::render`, which draws each:
`for (int x = 0; x < _width; x++) for (int y = _height; y >= 0; y--)`. -/
def tileCoordinates (m : Map) : List (Int × Int) :=
  (List.range m._width.toNat).flatMap fun (x : Nat) =>
    (List.range (m._height + 1).toNat).reverse.map fun (y : Nat) => ((x : Int), (y : Int))

/-- The function `Map::checkBoundaries(Point isoCoordinates)`. -/
def checkBoundaries (m : Map) (isoCoordinates : Point) : Bool :=
  if (decide (isoCoordinates.x ≥ 0) && decide (isoCoordinates.x ≤ m._width))
      && (decide (isoCoordinates.y ≥ 0) && decide (isoCoordinates.y ≤ m._height)) then
    true
  else
    false

/-- The subexpression `TILE_SIZE*_zoom`: the `int` constant is converted to
`float` and the product is a `float`. `TILE_SIZE` is a constant defined outside
the sources and is taken as a parameter. -/
def tileZoom (TILE_SIZE : Int) (m : Map) : FloatVal :=
  binary32.mul (binary32.ofInt TILE_SIZE) (binary32.ofRat m._zoom)

/-- The function `Map::getIsoCoords(Point screenCoordinates, bool
calcWithoutOffset)`:
`x = (sx + 2.0*sy) / (TILE_SIZE*_zoom) - 1.5`,
`y = (sx - 2.0*sy) / (TILE_SIZE*_zoom) + 1.5`, where `sx`, `sy` are the screen
coordinates, with the camera offset added in `int` unless `calcWithoutOffset`.
The literals make the sums, the quotient and the result `double`; the `float`
divisor is converted to `double`, which keeps its value. The local
`Point isoCoordinates` starts as `origin`. -/
def getIsoCoords (TILE_SIZE : Int) (m : Map) (origin : Point) (screenCoordinates : Point)
    (calcWithoutOffset : Bool) : Option Point :=
  if calcWithoutOffset then do
    let x ← (binary64.sub
      (binary64.div
        (binary64.add (binary64.ofInt screenCoordinates.x)
          (binary64.mul (.finite 2) (binary64.ofInt screenCoordinates.y)))
        (tileZoom TILE_SIZE m))
      (.finite (3 / 2))).toInt
    let y ← (binary64.add
      (binary64.div
        (binary64.sub (binary64.ofInt screenCoordinates.x)
          (binary64.mul (.finite 2) (binary64.ofInt screenCoordinates.y)))
        (tileZoom TILE_SIZE m))
      (.finite (3 / 2))).toInt
    pure (origin.setCoords x y)
  else do
    let sx ← intAdd screenCoordinates.x m._cameraOffset.x
    let sy ← intAdd screenCoordinates.y m._cameraOffset.y
    let x ← (binary64.sub
      (binary64.div
        (binary64.add (binary64.ofInt sx) (binary64.mul (.finite 2) (binary64.ofInt sy)))
        (tileZoom TILE_SIZE m))
      (.finite (3 / 2))).toInt
    let y ← (binary64.add
      (binary64.div
        (binary64.sub (binary64.ofInt sx) (binary64.mul (.finite 2) (binary64.ofInt sy)))
        (tileZoom TILE_SIZE m))
      (.finite (3 / 2))).toInt
    pure (origin.setCoords x y)

/-- The subexpression `TILE_SIZE*_zoom * n * c` for an `int` coordinate `n` and
a `double` literal `c` (0.5 or 0.25): `n` is converted to `float`, the product
with `TILE_SIZE*_zoom` is a `float`, and the product with `c` is a `double`. -/
def tileZoomTimes (TILE_SIZE : Int) (m : Map) (n : Int) (c : ℚ) : FloatVal :=
  binary64.mul (binary32.mul (tileZoom TILE_SIZE m) (binary32.ofInt n)) (.finite c)

/-- The function `Map::getScreenCoords(Point isoCoordinates, bool
calcWithoutOffset)`:
`x = (TILE_SIZE*_zoom * ix * 0.5) + (TILE_SIZE*_zoom * iy * 0.5)`,
`y = (TILE_SIZE*_zoom * ix * 0.25) - (TILE_SIZE*_zoom * iy * 0.25)`, where
`ix`, `iy` are the iso coordinates, less the camera offset (converted to
`double`) unless `calcWithoutOffset`. The local `Point screenCoordinates`
starts as `origin`. -/
def getScreenCoords (TILE_SIZE : Int) (m : Map) (origin : Point) (isoCoordinates : Point)
    (calcWithoutOffset : Bool) : Option Point :=
  if calcWithoutOffset then do
    let x ← (binary64.add (tileZoomTimes TILE_SIZE m isoCoordinates.x (1 / 2))
      (tileZoomTimes TILE_SIZE m isoCoordinates.y (1 / 2))).toInt
    let y ← (binary64.sub (tileZoomTimes TILE_SIZE m isoCoordinates.x (1 / 4))
      (tileZoomTimes TILE_SIZE m isoCoordinates.y (1 / 4))).toInt
    pure (origin.setCoords x y)
  else do
    let x ← (binary64.sub
      (binary64.add (tileZoomTimes TILE_SIZE m isoCoordinates.x (1 / 2))
        (tileZoomTimes TILE_SIZE m isoCoordinates.y (1 / 2)))
      (binary64.ofInt m._cameraOffset.x)).toInt
    let y ← (binary64.sub
      (binary64.sub (tileZoomTimes TILE_SIZE m isoCoordinates.x (1 / 4))
        (tileZoomTimes TILE_SIZE m isoCoordinates.y (1 / 4)))
      (binary64.ofInt m._cameraOffset.y)).toInt
    pure (origin.setCoords x y)

end Map

/-- The class `Sprite` as far as `Cell` uses it: the coordinates handed to
`setTileIsoCoordinates`. -/
structure Sprite where
  tileID : Int
  isoCoordinates : Point

/-- The call `sprite->setTileIsoCoordinates(p)`. -/
def Sprite.setTileIsoCoordinates (sprite : Sprite) (p : Point) : Sprite :=
  { sprite with isoCoordinates := p }

/-- The data members of `class Cell` used by `cell.cxx`. -/
structure Cell where
  _isoCoordinates : Point
  _tileID : Int
  _sprite : Sprite

namespace Cell

/-- The function `Cell::increaseHeightOfCell()`. The member `_maxCellHeight` is
declared outside the sources and is taken as a parameter. -/
def increaseHeightOfCell (_maxCellHeight : Int) (cell : Cell) : Cell :=
  let height := cell._isoCoordinates.height
  if height < _maxCellHeight then
    let isoCoordinates := cell._isoCoordinates.setHeight (cell._isoCoordinates.height + 1)
    { cell with
      _isoCoordinates := isoCoordinates
      _sprite := cell._sprite.setTileIsoCoordinates isoCoordinates }
  else cell

/-- The function `Cell::decreaseHeightOfCell()`. -/
def decreaseHeightOfCell (cell : Cell) : Cell :=
  let height := cell._isoCoordinates.height
  if height > 0 then
    let isoCoordinates := cell._isoCoordinates.setHeight (height - 1)
    { cell with
      _isoCoordinates := isoCoordinates
      _sprite := cell._sprite.setTileIsoCoordinates isoCoordinates }
  else cell

end Cell

/-! # Properties -/

/-! ## The constants and the comparison of `GameClock.hxx` -/

namespace GameClock

/-- C7: the constants exposed to collaborators have the specified values:
`GameMinut` is 1 tick, `GameHour` 60 ticks, `GameDay` 1440 ticks, and the
invalid-handle sentinel `ClockTaskHndlInvalid` is 0. -/
theorem constants_values :
    GameMinut = 1 ∧ GameHour = 60 ∧ GameDay = 1440 ∧ ClockTaskHndlInvalid = 0 := by
  refine ⟨rfl, ?_, ?_, rfl⟩ <;> decide

/-- The comparison of real-time tasks holds exactly when the wake time on the
right is the earlier one. -/
theorem realTime_gt_iff (a b : RealTimeClockTask) :
    a.gt b = true ↔ b.m_waketime < a.m_waketime := by
  simp [RealTimeClockTask.gt]

/-- The comparison of real-time tasks fails exactly when the wake time on the
left is not the later one. -/
theorem realTime_gt_eq_false_iff (a b : RealTimeClockTask) :
    a.gt b = false ↔ a.m_waketime ≤ b.m_waketime := by
  simp [RealTimeClockTask.gt]

/-- The comparison of game-time tasks holds exactly when the wake tick on the
right is the earlier one. -/
theorem gameTime_gt_iff (a b : GameTimeClockTask) :
    a.gt b = true ↔ b.m_waketime < a.m_waketime := by
  simp [GameTimeClockTask.gt]

/-- The comparison of game-time tasks fails exactly when the wake tick on the
left is not the later one. -/
theorem gameTime_gt_eq_false_iff (a b : GameTimeClockTask) :
    a.gt b = false ↔ a.m_waketime ≤ b.m_waketime := by
  simp [GameTimeClockTask.gt]

/-- C6: `operator>` on `RealTimeClockTask` and on `GameTimeClockTask` is a
strict weak ordering determined by the wake time alone. For each of the two:
it is irreflexive; it is transitive; incomparability is transitive; two tasks
with equal wake times are incomparable, whatever their callbacks, periods and
handles; and its value depends on the two wake times only. -/
theorem operator_gt_strict_weak_ordering :
    ((∀ a : RealTimeClockTask, a.gt a = false) ∧
      (∀ a b c : RealTimeClockTask, a.gt b = true → b.gt c = true → a.gt c = true) ∧
      (∀ a b c : RealTimeClockTask, a.gt b = false ∧ b.gt a = false →
        b.gt c = false ∧ c.gt b = false → a.gt c = false ∧ c.gt a = false) ∧
      (∀ a b : RealTimeClockTask, a.m_waketime = b.m_waketime →
        a.gt b = false ∧ b.gt a = false) ∧
      (∀ a b a1 b1 : RealTimeClockTask, a.m_waketime = a1.m_waketime →
        b.m_waketime = b1.m_waketime → a.gt b = a1.gt b1)) ∧
    ((∀ a : GameTimeClockTask, a.gt a = false) ∧
      (∀ a b c : GameTimeClockTask, a.gt b = true → b.gt c = true → a.gt c = true) ∧
      (∀ a b c : GameTimeClockTask, a.gt b = false ∧ b.gt a = false →
        b.gt c = false ∧ c.gt b = false → a.gt c = false ∧ c.gt a = false) ∧
      (∀ a b : GameTimeClockTask, a.m_waketime = b.m_waketime →
        a.gt b = false ∧ b.gt a = false) ∧
      (∀ a b a1 b1 : GameTimeClockTask, a.m_waketime = a1.m_waketime →
        b.m_waketime = b1.m_waketime → a.gt b = a1.gt b1)) := by
  refine ⟨⟨?_, ?_, ?_, ?_, ?_⟩, ⟨?_, ?_, ?_, ?_, ?_⟩⟩
  · intro a
    simp [RealTimeClockTask.gt]
  · intro a b c hab hbc
    rw [realTime_gt_iff] at *
    exact lt_trans hbc hab
  · intro a b c hab hbc
    simp only [realTime_gt_eq_false_iff] at *
    exact ⟨le_trans hab.1 hbc.1, le_trans hbc.2 hab.2⟩
  · intro a b h
    simp only [realTime_gt_eq_false_iff]
    exact ⟨le_of_eq h, le_of_eq h.symm⟩
  · intro a b a1 b1 ha hb
    simp only [RealTimeClockTask.gt, ha, hb]
  · intro a
    simp [GameTimeClockTask.gt]
  · intro a b c hab hbc
    rw [gameTime_gt_iff] at *
    exact lt_trans hbc hab
  · intro a b c hab hbc
    simp only [gameTime_gt_eq_false_iff] at *
    exact ⟨le_trans hab.1 hbc.1, le_trans hbc.2 hab.2⟩
  · intro a b h
    simp only [gameTime_gt_eq_false_iff]
    exact ⟨le_of_eq h, le_of_eq h.symm⟩
  · intro a b a1 b1 ha hb
    simp only [GameTimeClockTask.gt, ha, hb]

end GameClock

/-! ## `Cell`: the height operations -/

namespace Cell

/-- C9: the cell height stays in range under both height operations. For a
maximum height `M ≥ 0` and a cell whose height `h` satisfies `0 ≤ h ≤ M`, the
height after `increaseHeightOfCell` and after `decreaseHeightOfCell` is still
within `[0, M]`; `increaseHeightOfCell` adds exactly 1 when `h < M` and leaves
`h` unchanged when `h ≥ M`; `decreaseHeightOfCell` subtracts exactly 1 when
`h > 0` and leaves `h` unchanged when `h ≤ 0`. -/
theorem height_stays_in_range (M : Int) (cell : Cell) (hM : 0 ≤ M)
    (h0 : 0 ≤ cell._isoCoordinates.height) (h1 : cell._isoCoordinates.height ≤ M) :
    (0 ≤ (increaseHeightOfCell M cell)._isoCoordinates.height ∧
      (increaseHeightOfCell M cell)._isoCoordinates.height ≤ M) ∧
    (0 ≤ (decreaseHeightOfCell cell)._isoCoordinates.height ∧
      (decreaseHeightOfCell cell)._isoCoordinates.height ≤ M) ∧
    (cell._isoCoordinates.height < M →
      (increaseHeightOfCell M cell)._isoCoordinates.height = cell._isoCoordinates.height + 1) ∧
    (cell._isoCoordinates.height ≥ M →
      (increaseHeightOfCell M cell)._isoCoordinates.height = cell._isoCoordinates.height) ∧
    (cell._isoCoordinates.height > 0 →
      (decreaseHeightOfCell cell)._isoCoordinates.height = cell._isoCoordinates.height - 1) ∧
    (cell._isoCoordinates.height ≤ 0 →
      (decreaseHeightOfCell cell)._isoCoordinates.height = cell._isoCoordinates.height) := by
  have _ := hM
  simp only [increaseHeightOfCell, decreaseHeightOfCell, Point.setHeight]
  refine ⟨?_, ?_, ?_, ?_, ?_, ?_⟩
  · split_ifs <;> constructor <;> (try dsimp only) <;> omega
  · split_ifs <;> constructor <;> (try dsimp only) <;> omega
  · intro h
    rw [if_pos h]
  · intro h
    rw [if_neg (by omega)]
  · intro h
    rw [if_pos h]
  · intro h
    rw [if_neg (by omega)]

/-- The hypotheses of `height_stays_in_range` hold for a cell of height 3 with
maximum height 32, where the height goes to 4 and to 2. -/
theorem height_stays_in_range_witness :
    (increaseHeightOfCell 32 ⟨⟨1, 1, 3⟩, 14, ⟨14, ⟨1, 1, 3⟩⟩⟩)._isoCoordinates.height = 3 + 1 ∧
    (decreaseHeightOfCell ⟨⟨1, 1, 3⟩, 14, ⟨14, ⟨1, 1, 3⟩⟩⟩)._isoCoordinates.height = 3 - 1 :=
  have h := height_stays_in_range 32 ⟨⟨1, 1, 3⟩, 14, ⟨14, ⟨1, 1, 3⟩⟩⟩
    (by decide) (by decide) (by decide)
  ⟨h.2.2.1 (by decide), h.2.2.2.2.1 (by decide)⟩

end Cell

/-! ## `Map`: boundaries and coordinate conversion -/

namespace Map

/-- The tiles that the loops of the constructor and of `render` visit are the
points with `0 ≤ x < _width` and `0 ≤ y ≤ _height`. -/
theorem mem_tileCoordinates (m : Map) (x y : Int) :
    (x, y) ∈ m.tileCoordinates ↔ (0 ≤ x ∧ x < m._width) ∧ (0 ≤ y ∧ y ≤ m._height) := by
  simp only [tileCoordinates, List.mem_flatMap, List.mem_map, List.mem_range, List.mem_reverse,
    Prod.mk.injEq]
  constructor
  · rintro ⟨a, ha, b, hb, rfl, rfl⟩
    omega
  · rintro ⟨⟨hx0, hx⟩, hy0, hy⟩
    exact ⟨x.toNat, by omega, y.toNat, by omega, by omega, by omega⟩

/-- The points that `checkBoundaries` accepts are those with `0 ≤ x ≤ _width` and
`0 ≤ y ≤ _height`. -/
theorem checkBoundaries_iff (m : Map) (p : Point) :
    m.checkBoundaries p = true ↔ (0 ≤ p.x ∧ p.x ≤ m._width) ∧ (0 ≤ p.y ∧ p.y ≤ m._height) := by
  simp [checkBoundaries]

/-- C8: `Map::checkBoundaries` against the tiles of the map. For a map of
non-negative width, a point of the column `x = _width` with `0 ≤ y ≤ _height`
is accepted by `checkBoundaries`, and it is none of the tile coordinates that
the constructor populates and `render` draws (those have `x < _width`). -/
theorem checkBoundaries_accepts_column_width (m : Map) (y height : Int) (hw : 0 ≤ m._width)
    (hy0 : 0 ≤ y) (hy : y ≤ m._height) :
    m.checkBoundaries ⟨m._width, y, height⟩ = true ∧ (m._width, y) ∉ m.tileCoordinates := by
  constructor
  · rw [checkBoundaries_iff]
    exact ⟨⟨hw, le_refl _⟩, hy0, hy⟩
  · rw [mem_tileCoordinates]
    omega

/-- The hypotheses of `checkBoundaries_accepts_column_width` hold for the
16 x 16 map and the point `(16, 0)`. -/
theorem checkBoundaries_accepts_column_width_witness :
    checkBoundaries ⟨16, 16, ⟨0, 0, 0⟩, 1⟩ ⟨16, 0, 0⟩ = true ∧
      ((16 : Int), (0 : Int)) ∉ tileCoordinates ⟨16, 16, ⟨0, 0, 0⟩, 1⟩ :=
  checkBoundaries_accepts_column_width ⟨16, 16, ⟨0, 0, 0⟩, 1⟩ 0 0 (by decide) (by decide)
    (by decide)

end Map

/-- An integer is rounded to itself. -/
theorem roundHalfEven_intCast (n : Int) : roundHalfEven (n : ℚ) = n := by
  simp [roundHalfEven]

namespace FloatFormat

/-- Rounding leaves `m * 2 ^ e` as it is when `m` fits the significand and `e` is
not below the least exponent. -/
theorem roundRat_int_mul_zpow (F : FloatFormat) (m e : Int) (hm : |m| < 2 ^ F.prec)
    (he : F.emin ≤ e) : F.roundRat (m * 2 ^ e) = m * 2 ^ e := by
  by_cases h0 : m = 0
  · subst h0
    simp [roundRat, roundHalfEven]
  have hq : (0 : ℚ) < |(m : ℚ) * 2 ^ e| := by
    apply abs_pos.mpr
    have : (m : ℚ) ≠ 0 := by exact_mod_cast h0
    positivity
  have hlt : |(m : ℚ) * 2 ^ e| < ((2 : ℕ) : ℚ) ^ ((F.prec : Int) + e) := by
    rw [abs_mul, abs_of_pos (by positivity : (0 : ℚ) < 2 ^ e), zpow_add₀ (by norm_num)]
    apply mul_lt_mul_of_pos_right _ (by positivity)
    have : ((|m| : Int) : ℚ) < ((2 ^ F.prec : Int) : ℚ) := by exact_mod_cast hm
    simpa using this
  have hlog := (Int.lt_zpow_iff_log_lt (by norm_num : 1 < 2) hq).mp hlt
  have hu : F.ulpExponent (m * 2 ^ e) ≤ e := by
    unfold ulpExponent
    apply max_le _ he
    omega
  unfold roundRat
  generalize F.ulpExponent (m * 2 ^ e) = u at hu
  obtain ⟨d, hd⟩ := Int.eq_ofNat_of_zero_le (by omega : 0 ≤ e - u)
  have he2 : e = d + u := by omega
  have h2 : (m : ℚ) * 2 ^ e / 2 ^ u = ((m * 2 ^ d : Int) : ℚ) := by
    rw [he2, zpow_add₀ (by norm_num), zpow_natCast]
    push_cast
    field_simp
    ring
  rw [h2, roundHalfEven_intCast, he2, zpow_add₀ (by norm_num), zpow_natCast]
  push_cast
  ring

/-- The rational `m * 2 ^ e` is a value of the format when `m` fits the
significand and `e` is within the exponent range. -/
theorem exact_int_mul_zpow (F : FloatFormat) (m e : Int) (hm : |m| < 2 ^ F.prec)
    (he : F.emin ≤ e) (hov : F.prec + e ≤ F.emax + 1) : F.Exact (m * 2 ^ e) := by
  refine ⟨F.roundRat_int_mul_zpow m e hm he, ?_⟩
  rw [abs_mul, abs_of_pos (by positivity : (0 : ℚ) < 2 ^ e)]
  have h1 : |(m : ℚ)| < 2 ^ (F.prec : Int) := by
    have : ((|m| : Int) : ℚ) < ((2 ^ F.prec : Int) : ℚ) := by exact_mod_cast hm
    simpa using this
  calc |(m : ℚ)| * 2 ^ e < 2 ^ (F.prec : Int) * 2 ^ e :=
        mul_lt_mul_of_pos_right h1 (by positivity)
    _ = 2 ^ ((F.prec : Int) + e) := by rw [zpow_add₀ (by norm_num)]
    _ ≤ 2 ^ (F.emax + 1) := zpow_le_zpow_right₀ (by norm_num) hov

/-- An integer that fits the significand is a value of the format. -/
theorem exact_int (F : FloatFormat) (n : Int) (hn : |n| < 2 ^ F.prec) (he : F.emin ≤ 0)
    (hov : (F.prec : Int) ≤ F.emax + 1) : F.Exact n := by
  have h := F.exact_int_mul_zpow n 0 hn he (by omega)
  simpa using h

/-- Half an integer that fits the significand is a value of the format. -/
theorem exact_half_int (F : FloatFormat) (n : Int) (hn : |n| < 2 ^ F.prec) (he : F.emin ≤ -1)
    (hov : (F.prec : Int) ≤ F.emax + 2) : F.Exact ((n : ℚ) / 2) := by
  have h := F.exact_int_mul_zpow n (-1) hn he (by omega)
  have e : (n : ℚ) * 2 ^ (-1 : Int) = (n : ℚ) / 2 := by
    rw [zpow_neg, zpow_one]; rfl
  rwa [e] at h

end FloatFormat

namespace FloatVal

/-- A datum with a value is neither a NaN nor an infinity. -/
theorem of_toRat? {a : FloatVal} {q : ℚ} (h : a.toRat? = some q) :
    a.isNaN = false ∧ a.isInfinite = false ∧ a.value = q ∧ a.isZero = decide (q = 0) := by
  cases a <;> simp_all [toRat?, isNaN, isInfinite, value, isZero]

/-- The value of the unary minus. -/
theorem toRat?_neg {a : FloatVal} {q : ℚ} (h : a.toRat? = some q) :
    a.neg.toRat? = some (-q) := by
  cases a with
  | finite r =>
    simp only [toRat?, Option.some.injEq] at h
    subst h
    by_cases h0 : r = 0 <;> simp [neg, toRat?, h0]
  | negZero =>
    simp only [toRat?, Option.some.injEq] at h
    subst h
    simp [neg, toRat?]
  | infinite s => simp [toRat?] at h
  | nan => simp [toRat?] at h

/-- The conversion to `int` of a finite datum truncates its value. -/
theorem toInt_of_toRat? {a : FloatVal} {q : ℚ} (h : a.toRat? = some q) :
    a.toInt = toInt? (truncToInt q) := by
  simp [toInt, h]

end FloatVal

namespace FloatFormat

/-- An exact result that is a value of the format is delivered as it is. -/
theorem toRat?_deliver (F : FloatFormat) (s : Bool) {q : ℚ} (h : F.Exact q) :
    (F.deliver s q).toRat? = some q := by
  unfold deliver
  rw [h.1, if_neg (not_le.mpr h.2)]
  split_ifs with h1 h2
  · simp [FloatVal.toRat?, h1]
  · simp [FloatVal.toRat?, h1]
  · simp [FloatVal.toRat?]

/-- The conversion of an `int` that is a value of the format is exact. -/
theorem toRat?_ofInt (F : FloatFormat) {n : Int} (h : F.Exact n) :
    (F.ofInt n).toRat? = some (n : ℚ) :=
  F.toRat?_deliver false h

/-- The literal of a value of the format is that value. -/
theorem toRat?_ofRat (F : FloatFormat) {q : ℚ} (h : F.Exact q) :
    (F.ofRat q).toRat? = some q :=
  F.toRat?_deliver false h

/-- The product of finite data is exact when the exact product is a value of the
format. -/
theorem toRat?_mul (F : FloatFormat) {a b : FloatVal} {x y : ℚ} (ha : a.toRat? = some x)
    (hb : b.toRat? = some y) (h : F.Exact (x * y)) : (F.mul a b).toRat? = some (x * y) := by
  obtain ⟨a1, a2, a3, -⟩ := FloatVal.of_toRat? ha
  obtain ⟨b1, b2, b3, -⟩ := FloatVal.of_toRat? hb
  simp only [mul, a1, b1, a2, b2, a3, b3, Bool.or_self, Bool.false_eq_true, if_false]
  exact F.toRat?_deliver _ h

/-- The sum of finite data is exact when the exact sum is a value of the format. -/
theorem toRat?_add (F : FloatFormat) {a b : FloatVal} {x y : ℚ} (ha : a.toRat? = some x)
    (hb : b.toRat? = some y) (h : F.Exact (x + y)) : (F.add a b).toRat? = some (x + y) := by
  obtain ⟨a1, a2, a3, -⟩ := FloatVal.of_toRat? ha
  obtain ⟨b1, b2, b3, -⟩ := FloatVal.of_toRat? hb
  simp only [add, a1, b1, a2, b2, a3, b3, Bool.or_self, Bool.false_eq_true, if_false]
  exact F.toRat?_deliver _ h

/-- The difference of finite data is exact when the exact difference is a value
of the format. -/
theorem toRat?_sub (F : FloatFormat) {a b : FloatVal} {x y : ℚ} (ha : a.toRat? = some x)
    (hb : b.toRat? = some y) (h : F.Exact (x - y)) : (F.sub a b).toRat? = some (x - y) := by
  rw [sub_eq_add_neg] at h ⊢
  exact F.toRat?_add ha (FloatVal.toRat?_neg hb) h

/-- The quotient of finite data by a non-zero divisor is exact when the exact
quotient is a value of the format. -/
theorem toRat?_div (F : FloatFormat) {a b : FloatVal} {x y : ℚ} (ha : a.toRat? = some x)
    (hb : b.toRat? = some y) (hy : y ≠ 0) (h : F.Exact (x / y)) :
    (F.div a b).toRat? = some (x / y) := by
  obtain ⟨a1, a2, a3, -⟩ := FloatVal.of_toRat? ha
  obtain ⟨b1, b2, b3, b4⟩ := FloatVal.of_toRat? hb
  simp only [div, a1, b1, a2, b2, a3, b3, b4, hy, decide_False, Bool.or_self, Bool.false_eq_true,
    if_false]
  exact F.toRat?_deliver _ h

/-- The exact product, with the value `r` it is equal to. -/
theorem toRat?_mul_eq (F : FloatFormat) {a b : FloatVal} {x y : ℚ} (ha : a.toRat? = some x)
    (hb : b.toRat? = some y) (r : ℚ) (e : x * y = r) (h : F.Exact r) : (F.mul a b).toRat? = some r := by
  subst e
  exact F.toRat?_mul ha hb h

/-- The exact sum, with the value `r` it is equal to. -/
theorem toRat?_add_eq (F : FloatFormat) {a b : FloatVal} {x y : ℚ} (ha : a.toRat? = some x)
    (hb : b.toRat? = some y) (r : ℚ) (e : x + y = r) (h : F.Exact r) : (F.add a b).toRat? = some r := by
  subst e
  exact F.toRat?_add ha hb h

/-- The exact difference, with the value `r` it is equal to. -/
theorem toRat?_sub_eq (F : FloatFormat) {a b : FloatVal} {x y : ℚ} (ha : a.toRat? = some x)
    (hb : b.toRat? = some y) (r : ℚ) (e : x - y = r) (h : F.Exact r) : (F.sub a b).toRat? = some r := by
  subst e
  exact F.toRat?_sub ha hb h

/-- The exact quotient, with the value `r` it is equal to. -/
theorem toRat?_div_eq (F : FloatFormat) {a b : FloatVal} {x y : ℚ} (ha : a.toRat? = some x)
    (hb : b.toRat? = some y) (hy : y ≠ 0) (r : ℚ) (e : x / y = r) (h : F.Exact r) :
    (F.div a b).toRat? = some r := by
  subst e
  exact F.toRat?_div ha hb hy h

end FloatFormat

/-- An integer below `2 ^ 24` in magnitude is a `float`. -/
theorem exact32_int {q : ℚ} (n : Int) (e : q = n) (hl : -2 ^ 24 < n) (hu : n < 2 ^ 24) :
    binary32.Exact q := by
  subst e
  exact binary32.exact_int n (abs_lt.mpr ⟨hl, hu⟩) (by decide) (by decide)

/-- An integer below `2 ^ 53` in magnitude is a `double`. -/
theorem exact64_int {q : ℚ} (n : Int) (e : q = n) (hl : -2 ^ 53 < n) (hu : n < 2 ^ 53) :
    binary64.Exact q := by
  subst e
  exact binary64.exact_int n (abs_lt.mpr ⟨hl, hu⟩) (by decide) (by decide)

/-- Half an integer below `2 ^ 53` in magnitude is a `double`. -/
theorem exact64_half_int {q : ℚ} (n : Int) (e : q = n / 2) (hl : -2 ^ 53 < n) (hu : n < 2 ^ 53) :
    binary64.Exact q := by
  subst e
  exact binary64.exact_half_int n (abs_lt.mpr ⟨hl, hu⟩) (by decide) (by decide)

/-- An integer from `-2 ^ 31` to `2 ^ 31 - 1` is an `int`. -/
theorem toInt?_of_range {n : Int} (hl : -2 ^ 31 ≤ n) (hu : n < 2 ^ 31) : toInt? n = some n := by
  have h : INT_MIN ≤ n ∧ n ≤ INT_MAX := by
    constructor
    · exact hl
    · show n ≤ 2 ^ 31 - 1
      omega
  simp [toInt?, h]

/-- An integral value is truncated to itself. -/
theorem truncToInt_intCast (n : Int) : truncToInt (n : ℚ) = n := by
  simp [truncToInt]

/-- The conversion to `int` of a datum whose value is an integer within the range
of `int`. -/
theorem toInt_of_toRat?_int {a : FloatVal} {n : Int} (h : a.toRat? = some (n : ℚ))
    (hl : -2 ^ 31 ≤ n) (hu : n < 2 ^ 31) : a.toInt = some n := by
  rw [FloatVal.toInt_of_toRat? h, truncToInt_intCast, toInt?_of_range hl hu]

/-- The truncation of `x - 1.5`, for an integer `x`. -/
theorem truncToInt_sub_three_halves (x : Int) :
    truncToInt ((x : ℚ) - 3 / 2) = if 2 ≤ x then x - 2 else x - 1 := by
  unfold truncToInt
  by_cases hx : 2 ≤ x
  · have h2 : (2 : ℚ) ≤ x := by exact_mod_cast hx
    rw [if_pos (by linarith), if_pos hx, Int.floor_eq_iff]
    push_cast
    constructor <;> linarith
  · have h2 : (x : ℚ) ≤ 1 := by exact_mod_cast (by omega : x ≤ 1)
    rw [if_neg (by linarith), if_neg hx, Int.ceil_eq_iff]
    push_cast
    constructor <;> linarith

/-- The truncation of `y + 1.5`, for an integer `y`. -/
theorem truncToInt_add_three_halves (y : Int) :
    truncToInt ((y : ℚ) + 3 / 2) = if -1 ≤ y then y + 1 else y + 2 := by
  unfold truncToInt
  by_cases hy : -1 ≤ y
  · have h2 : (-1 : ℚ) ≤ y := by exact_mod_cast hy
    rw [if_pos (by linarith), if_pos hy, Int.floor_eq_iff]
    push_cast
    constructor <;> linarith
  · have h2 : (y : ℚ) ≤ -2 := by exact_mod_cast (by omega : y ≤ -2)
    rw [if_neg (by linarith), if_neg hy, Int.ceil_eq_iff]
    push_cast
    constructor <;> linarith

/-- The `int` value `2 ^ 24 + 1` is not a `float`: its conversion is `2 ^ 24`,
the even one of its two neighbours. -/
theorem ofInt_rounds_to_even : binary32.ofInt 16777217 = .finite 16777216 := by
  have hlog : Int.log 2 |((16777217 : Int) : ℚ)| = 24 := by
    have e : |((16777217 : Int) : ℚ)| = ((16777217 : ℕ) : ℚ) := by norm_num
    have hn : Nat.log 2 16777217 = 24 :=
      Nat.log_eq_of_pow_le_of_lt_pow (by norm_num) (by norm_num)
    rw [e, Int.log_natCast, hn]
    rfl
  have hu : binary32.ulpExponent ((16777217 : Int) : ℚ) = 1 := by
    unfold FloatFormat.ulpExponent
    rw [hlog]
    decide
  have hfl : ⌊((16777217 : Int) : ℚ) / 2 ^ (1 : Int)⌋ = 8388608 := by
    rw [Int.floor_eq_iff]
    norm_num
  have hr : binary32.roundRat ((16777217 : Int) : ℚ) = 16777216 := by
    unfold FloatFormat.roundRat
    rw [hu]
    unfold roundHalfEven
    rw [hfl]
    norm_num
  unfold FloatFormat.ofInt FloatFormat.deliver
  rw [hr]
  norm_num [binary32]

namespace Map

/-- At zoom 1 the product `TILE_SIZE * _zoom` is the tile size `4 * k` itself. -/
theorem toRat?_tileZoom (k : Int) (hk : 0 < k) (hT : 4 * k < 2 ^ 24) (m : Map)
    (hz : m._zoom = 1) : (tileZoom (4 * k) m).toRat? = some (((4 * k : Int) : ℚ)) := by
  unfold tileZoom
  rw [hz]
  have h1 : (binary32.ofInt (4 * k)).toRat? = some (((4 * k : Int) : ℚ)) :=
    binary32.toRat?_ofInt (exact32_int (4 * k) rfl (by omega) hT)
  have h2 : (binary32.ofRat 1).toRat? = some (1 : ℚ) :=
    binary32.toRat?_ofRat (exact32_int 1 (by norm_num) (by decide) (by decide))
  have h3 := binary32.toRat?_mul h1 h2
    (exact32_int (4 * k) (by push_cast; ring) (by omega) hT)
  rwa [mul_one] at h3

/-- At zoom 1 the product `TILE_SIZE * _zoom * n * c`, for `c` one half or one
quarter, is the integer `j` with `j = 4 * k * n * c`. -/
theorem toRat?_tileZoomTimes (k : Int) (hk : 0 < k) (hT : 4 * k < 2 ^ 24) (m : Map)
    (hz : m._zoom = 1) (n u : Int) (hu : u = k * n) (hl : -2 ^ 24 < 4 * u) (hh : 4 * u < 2 ^ 24)
    (c : ℚ) (j : Int) (hj : ((4 * u : Int) : ℚ) * c = j) (hjl : -2 ^ 24 < j) (hjh : j < 2 ^ 24) :
    (tileZoomTimes (4 * k) m n c).toRat? = some (j : ℚ) := by
  unfold tileZoomTimes
  have hn : -2 ^ 24 < n ∧ n < 2 ^ 24 := by
    subst hu
    constructor <;> nlinarith
  have h1 := binary32.toRat?_mul (toRat?_tileZoom k hk hT m hz)
    (binary32.toRat?_ofInt (exact32_int n rfl hn.1 hn.2))
    (exact32_int (4 * u) (by subst hu; push_cast; ring) hl hh)
  have e : ((4 * k : Int) : ℚ) * (n : ℚ) = ((4 * u : Int) : ℚ) := by
    subst hu; push_cast; ring
  rw [e] at h1
  have h2 := binary64.toRat?_mul h1 (show (FloatVal.finite c).toRat? = some c from rfl)
    (exact64_int j hj (by omega) (by omega))
  rwa [hj] at h2

/-- The screen coordinates of an iso point at zoom 1 and tile size `4 * k`, when
the products `TILE_SIZE * x` and `TILE_SIZE * y` are below `2 ^ 24` in
magnitude and the camera offset is at most `2 ^ 30`: every operation is exact. -/
theorem getScreenCoords_exact (k : Int) (hk : 0 < k) (hT : 4 * k < 2 ^ 24) (m : Map)
    (hz : m._zoom = 1) (origin p : Point) (b : Bool)
    (hxl : -2 ^ 24 < 4 * (k * p.x)) (hxh : 4 * (k * p.x) < 2 ^ 24)
    (hyl : -2 ^ 24 < 4 * (k * p.y)) (hyh : 4 * (k * p.y) < 2 ^ 24)
    (hcxl : -2 ^ 30 ≤ m._cameraOffset.x) (hcxh : m._cameraOffset.x ≤ 2 ^ 30)
    (hcyl : -2 ^ 30 ≤ m._cameraOffset.y) (hcyh : m._cameraOffset.y ≤ 2 ^ 30) :
    getScreenCoords (4 * k) m origin p b =
      some (origin.setCoords
        (2 * (k * p.x) + 2 * (k * p.y) - if b then 0 else m._cameraOffset.x)
        (k * p.x - k * p.y - if b then 0 else m._cameraOffset.y)) := by
  generalize hu : k * p.x = u at hxl hxh ⊢
  generalize hv : k * p.y = v at hyl hyh ⊢
  have x2 := toRat?_tileZoomTimes k hk hT m hz p.x u hu.symm hxl hxh (1 / 2) (2 * u)
    (by push_cast; ring) (by omega) (by omega)
  have y2 := toRat?_tileZoomTimes k hk hT m hz p.y v hv.symm hyl hyh (1 / 2) (2 * v)
    (by push_cast; ring) (by omega) (by omega)
  have x4 := toRat?_tileZoomTimes k hk hT m hz p.x u hu.symm hxl hxh (1 / 4) u
    (by push_cast; ring) (by omega) (by omega)
  have y4 := toRat?_tileZoomTimes k hk hT m hz p.y v hv.symm hyl hyh (1 / 4) v
    (by push_cast; ring) (by omega) (by omega)
  have sx := binary64.toRat?_add_eq x2 y2 ((2 * u + 2 * v : Int) : ℚ) (by push_cast; ring)
    (exact64_int (2 * u + 2 * v) rfl (by omega) (by omega))
  have sy := binary64.toRat?_sub_eq x4 y4 ((u - v : Int) : ℚ) (by push_cast; ring)
    (exact64_int (u - v) rfl (by omega) (by omega))
  cases b
  · have cx := binary64.toRat?_ofInt
      (exact64_int m._cameraOffset.x rfl (by omega) (by omega))
    have cy := binary64.toRat?_ofInt
      (exact64_int m._cameraOffset.y rfl (by omega) (by omega))
    have rx := binary64.toRat?_sub_eq sx cx
      ((2 * u + 2 * v - m._cameraOffset.x : Int) : ℚ) (by push_cast; ring)
      (exact64_int (2 * u + 2 * v - m._cameraOffset.x) rfl (by omega) (by omega))
    have ry := binary64.toRat?_sub_eq sy cy
      ((u - v - m._cameraOffset.y : Int) : ℚ) (by push_cast; ring)
      (exact64_int (u - v - m._cameraOffset.y) rfl (by omega) (by omega))
    simp only [getScreenCoords, Bool.false_eq_true, if_false,
      toInt_of_toRat?_int rx (by omega) (by omega), toInt_of_toRat?_int ry (by omega) (by omega)]
    rfl
  · simp only [getScreenCoords, if_true,
      toInt_of_toRat?_int sx (by omega) (by omega), toInt_of_toRat?_int sy (by omega) (by omega),
      sub_zero]
    rfl

/-- The iso coordinates of a screen point at zoom 1 and tile size `4 * k`, when
the screen point (with the camera offset added, unless `calcWithoutOffset`) is
`(2k(x + y), k(x - y))` for integers `x`, `y` with `TILE_SIZE * x` and
`TILE_SIZE * y` below `2 ^ 31` in magnitude: the quotients are `x` and `y`
exactly, and `x - 1.5`, `y + 1.5` are truncated. -/
theorem getIsoCoords_exact (k : Int) (hk : 0 < k) (hT : 4 * k < 2 ^ 24) (m : Map)
    (hz : m._zoom = 1) (origin s : Point) (b : Bool) (x y : Int)
    (hsx : s.x + (if b then 0 else m._cameraOffset.x) = 2 * (k * x) + 2 * (k * y))
    (hsy : s.y + (if b then 0 else m._cameraOffset.y) = k * x - k * y)
    (hxl : -2 ^ 31 < 4 * (k * x)) (hxh : 4 * (k * x) < 2 ^ 31)
    (hyl : -2 ^ 31 < 4 * (k * y)) (hyh : 4 * (k * y) < 2 ^ 31) :
    getIsoCoords (4 * k) m origin s b =
      some (origin.setCoords (if 2 ≤ x then x - 2 else x - 1)
        (if -1 ≤ y then y + 1 else y + 2)) := by
  have hx : -2 ^ 29 < x ∧ x < 2 ^ 29 := by constructor <;> nlinarith
  have hy : -2 ^ 29 < y ∧ y < 2 ^ 29 := by constructor <;> nlinarith
  have hk0 : (k : ℚ) ≠ 0 := by exact_mod_cast hk.ne.symm
  have hk4 : ((4 * k : Int) : ℚ) ≠ 0 := by push_cast; positivity
  have tz := toRat?_tileZoom k hk hT m hz
  -- the two sums that the expressions start from
  have key : ∀ a c : Int, a = 2 * (k * x) + 2 * (k * y) → c = k * x - k * y →
      (binary64.sub
        (binary64.div
          (binary64.add (binary64.ofInt a) (binary64.mul (.finite 2) (binary64.ofInt c)))
          (tileZoom (4 * k) m))
        (.finite (3 / 2))).toInt = some (if 2 ≤ x then x - 2 else x - 1) ∧
      (binary64.add
        (binary64.div
          (binary64.sub (binary64.ofInt a) (binary64.mul (.finite 2) (binary64.ofInt c)))
          (tileZoom (4 * k) m))
        (.finite (3 / 2))).toInt = some (if -1 ≤ y then y + 1 else y + 2) := by
    intro a c ha hc
    have fa := binary64.toRat?_ofInt (exact64_int a rfl (by omega) (by omega))
    have fc := binary64.toRat?_ofInt (exact64_int c rfl (by omega) (by omega))
    have f2c := binary64.toRat?_mul_eq (show (FloatVal.finite 2).toRat? = some 2 from rfl) fc
      ((2 * c : Int) : ℚ) (by push_cast; ring) (exact64_int (2 * c) rfl (by omega) (by omega))
    have nx := binary64.toRat?_add_eq fa f2c ((a + 2 * c : Int) : ℚ) (by push_cast; ring)
      (exact64_int (a + 2 * c) rfl (by omega) (by omega))
    have ny := binary64.toRat?_sub_eq fa f2c ((a - 2 * c : Int) : ℚ) (by push_cast; ring)
      (exact64_int (a - 2 * c) rfl (by omega) (by omega))
    have qx := binary64.toRat?_div_eq nx tz hk4 (x : ℚ)
      (by subst ha hc; push_cast; field_simp; ring) (exact64_int x rfl (by omega) (by omega))
    have qy := binary64.toRat?_div_eq ny tz hk4 (y : ℚ)
      (by subst ha hc; push_cast; field_simp; ring) (exact64_int y rfl (by omega) (by omega))
    have rx := binary64.toRat?_sub_eq qx (show (FloatVal.finite (3 / 2)).toRat? = some (3 / 2) from rfl)
      ((x : ℚ) - 3 / 2) rfl
      (exact64_half_int (2 * x - 3) (by push_cast; ring) (by omega) (by omega))
    have ry := binary64.toRat?_add_eq qy (show (FloatVal.finite (3 / 2)).toRat? = some (3 / 2) from rfl)
      ((y : ℚ) + 3 / 2) rfl
      (exact64_half_int (2 * y + 3) (by push_cast; ring) (by omega) (by omega))
    rw [FloatVal.toInt_of_toRat? rx, FloatVal.toInt_of_toRat? ry, truncToInt_sub_three_halves,
      truncToInt_add_three_halves]
    constructor
    · apply toInt?_of_range <;> split_ifs <;> omega
    · apply toInt?_of_range <;> split_ifs <;> omega
  cases b
  · simp only [Bool.false_eq_true, if_false] at hsx hsy
    have ix : intAdd s.x m._cameraOffset.x = some (s.x + m._cameraOffset.x) :=
      toInt?_of_range (by omega) (by omega)
    have iy : intAdd s.y m._cameraOffset.y = some (s.y + m._cameraOffset.y) :=
      toInt?_of_range (by omega) (by omega)
    obtain ⟨h1, h2⟩ := key _ _ hsx hsy
    simp only [getIsoCoords, Bool.false_eq_true, if_false, ix, iy, Option.bind_eq_bind,
      Option.some_bind, h1, h2]
    rfl
  · simp only [if_true, add_zero] at hsx hsy
    obtain ⟨h1, h2⟩ := key _ _ hsx hsy
    simp only [getIsoCoords, if_true, h1, h2]
    rfl

/-- The round trip iso → screen → iso at zoom 1 and tile size `4 * k`, `k > 0`,
with the same `calcWithoutOffset` in both calls, in the range where the
arithmetic is exact. -/
theorem getIsoCoords_getScreenCoords (k : Int) (hk : 0 < k) (hT : 4 * k < 2 ^ 24) (m : Map)
    (hz : m._zoom = 1) (origin1 origin2 p : Point) (b : Bool)
    (hxl : -2 ^ 24 < 4 * (k * p.x)) (hxh : 4 * (k * p.x) < 2 ^ 24)
    (hyl : -2 ^ 24 < 4 * (k * p.y)) (hyh : 4 * (k * p.y) < 2 ^ 24)
    (hcxl : -2 ^ 30 ≤ m._cameraOffset.x) (hcxh : m._cameraOffset.x ≤ 2 ^ 30)
    (hcyl : -2 ^ 30 ≤ m._cameraOffset.y) (hcyh : m._cameraOffset.y ≤ 2 ^ 30) :
    ((getScreenCoords (4 * k) m origin2 p b).bind fun s => getIsoCoords (4 * k) m origin1 s b) =
      some (origin1.setCoords (if 2 ≤ p.x then p.x - 2 else p.x - 1)
        (if -1 ≤ p.y then p.y + 1 else p.y + 2)) := by
  rw [getScreenCoords_exact k hk hT m hz origin2 p b hxl hxh hyl hyh hcxl hcxh hcyl hcyh,
    Option.some_bind]
  apply getIsoCoords_exact k hk hT m hz origin1 _ b p.x p.y _ _ (by omega) (by omega) (by omega)
    (by omega)
  · cases b <;> simp [Point.setCoords]
  · cases b <;> simp [Point.setCoords]

/-- C10, as amended: with zoom level 1 and a tile size that is a positive
multiple of 4, for every integer iso point `p = (x, y)` with
`|TILE_SIZE * x| < 2 ^ 24` and `|TILE_SIZE * y| < 2 ^ 24`, every camera offset
within `± 2 ^ 30` and either value of `calcWithoutOffset` (the same in both
calls; the tile size is below `2 ^ 24`), so that every `float` and `double`
operation is exact and every result is a value of `int`, converting `p` to
screen coordinates with `getScreenCoords` and back with `getIsoCoords` returns
the point with first coordinate `x - 2` when `x ≥ 2` and `x - 1` otherwise, and
second coordinate `y + 1` when `y ≥ -1` and `y + 2` otherwise. The result
differs from `p` in both coordinates. -/
theorem roundTrip_shifts_point (TILE_SIZE k : Int) (hk : 0 < k) (hT : TILE_SIZE = 4 * k)
    (hTs : TILE_SIZE < 2 ^ 24) (m : Map) (hz : m._zoom = 1) (origin1 origin2 p : Point) (b : Bool)
    (hx : |TILE_SIZE * p.x| < 2 ^ 24) (hy : |TILE_SIZE * p.y| < 2 ^ 24)
    (hcx : |m._cameraOffset.x| ≤ 2 ^ 30) (hcy : |m._cameraOffset.y| ≤ 2 ^ 30) :
    ((getScreenCoords TILE_SIZE m origin2 p b).bind
        fun s => getIsoCoords TILE_SIZE m origin1 s b) =
      some (origin1.setCoords (if 2 ≤ p.x then p.x - 2 else p.x - 1)
        (if -1 ≤ p.y then p.y + 1 else p.y + 2)) ∧
    (if 2 ≤ p.x then p.x - 2 else p.x - 1) ≠ p.x ∧
    (if -1 ≤ p.y then p.y + 1 else p.y + 2) ≠ p.y := by
  subst hT
  rw [abs_lt, mul_assoc] at hx hy
  rw [abs_le] at hcx hcy
  refine ⟨getIsoCoords_getScreenCoords k hk hTs m hz origin1 origin2 p b hx.1 hx.2 hy.1 hy.2
    hcx.1 hcx.2 hcy.1 hcy.2, ?_, ?_⟩ <;> split_ifs <;> omega

/-- The hypotheses of `roundTrip_shifts_point` hold for tile size 32, the
16 x 16 map with camera offset `(5, 7)` and the iso point `(3, -4)`, which
comes back as `(1, -2)`. -/
theorem roundTrip_shifts_point_witness :
    ((getScreenCoords 32 ⟨16, 16, ⟨5, 7, 0⟩, 1⟩ ⟨0, 0, 0⟩ ⟨3, -4, 0⟩ false).bind
        fun s => getIsoCoords 32 ⟨16, 16, ⟨5, 7, 0⟩, 1⟩ ⟨0, 0, 0⟩ s false) =
      some ⟨1, -2, 0⟩ :=
  (roundTrip_shifts_point 32 8 (by decide) (by decide) (by decide) ⟨16, 16, ⟨5, 7, 0⟩, 1⟩ rfl
    ⟨0, 0, 0⟩ ⟨0, 0, 0⟩ ⟨3, -4, 0⟩ false (by decide) (by decide) (by decide) (by decide)).1

/-- C10 as stated fails: with tile size 32, zoom 1, no camera offset and
`calcWithoutOffset = true`, the iso point `(0, 0)` goes to the screen point
`(0, 0)` and comes back as `(-1, 1)`, not as `(0, 0)`. -/
theorem roundTrip_not_identity :
    getScreenCoords 32 ⟨16, 16, ⟨0, 0, 0⟩, 1⟩ ⟨0, 0, 0⟩ ⟨0, 0, 0⟩ true = some ⟨0, 0, 0⟩ ∧
    getIsoCoords 32 ⟨16, 16, ⟨0, 0, 0⟩, 1⟩ ⟨0, 0, 0⟩ ⟨0, 0, 0⟩ true = some ⟨-1, 1, 0⟩ ∧
    ((getScreenCoords 32 ⟨16, 16, ⟨0, 0, 0⟩, 1⟩ ⟨0, 0, 0⟩ ⟨0, 0, 0⟩ true).bind
        fun s => getIsoCoords 32 ⟨16, 16, ⟨0, 0, 0⟩, 1⟩ ⟨0, 0, 0⟩ s true) ≠ some ⟨0, 0, 0⟩ := by
  have h1 := getScreenCoords_exact 8 (by decide) (by decide) ⟨16, 16, ⟨0, 0, 0⟩, 1⟩ rfl ⟨0, 0, 0⟩
    ⟨0, 0, 0⟩ true (by decide) (by decide) (by decide) (by decide) (by decide) (by decide)
    (by decide) (by decide)
  have h2 := getIsoCoords_exact 8 (by decide) (by decide) ⟨16, 16, ⟨0, 0, 0⟩, 1⟩ rfl ⟨0, 0, 0⟩
    ⟨0, 0, 0⟩ true 0 0 (by decide) (by decide) (by decide) (by decide) (by decide) (by decide)
  have e : (4 * 8 : Int) = 32 := by decide
  rw [e] at h1 h2
  have h1' : getScreenCoords 32 ⟨16, 16, ⟨0, 0, 0⟩, 1⟩ ⟨0, 0, 0⟩ ⟨0, 0, 0⟩ true = some ⟨0, 0, 0⟩ := by
    rw [h1]; decide
  have h2' : getIsoCoords 32 ⟨16, 16, ⟨0, 0, 0⟩, 1⟩ ⟨0, 0, 0⟩ ⟨0, 0, 0⟩ true = some ⟨-1, 1, 0⟩ := by
    rw [h2]; decide
  refine ⟨h1', h2', ?_⟩
  rw [h1', Option.some_bind, h2']
  decide

/-- Beyond the range in which the arithmetic is exact the `float` products round: with tile
size 32, zoom 1 and `calcWithoutOffset = true` the iso point `(16777217, 0)`
goes to the screen point `(268435456, 134217728)`, as `(16777216, 0)` does,
and comes back as `(16777214, 1)`. -/
theorem roundTrip_rounds_large_coordinate :
    getScreenCoords 32 ⟨16, 16, ⟨0, 0, 0⟩, 1⟩ ⟨0, 0, 0⟩ ⟨16777217, 0, 0⟩ true
      = some ⟨268435456, 134217728, 0⟩ ∧
    getIsoCoords 32 ⟨16, 16, ⟨0, 0, 0⟩, 1⟩ ⟨0, 0, 0⟩ ⟨268435456, 134217728, 0⟩ true
      = some ⟨16777214, 1, 0⟩ := by
  have tz := toRat?_tileZoom 8 (by decide) (by decide) ⟨16, 16, ⟨0, 0, 0⟩, 1⟩ rfl
  have e32 : (4 * 8 : Int) = 32 := by decide
  rw [e32] at tz
  have hx : (binary32.ofInt 16777217).toRat? = some (16777216 : ℚ) := by
    rw [ofInt_rounds_to_even]
    rfl
  have px := binary32.toRat?_mul_eq tz hx (((536870912 : Int) : ℚ)) (by norm_num)
    (by
      have h := binary32.exact_int_mul_zpow 1 29 (by decide) (by decide) (by decide)
      have e : ((1 : Int) : ℚ) * 2 ^ (29 : Int) = ((536870912 : Int) : ℚ) := by norm_num
      rwa [e] at h)
  have x2 : (tileZoomTimes 32 ⟨16, 16, ⟨0, 0, 0⟩, 1⟩ 16777217 (1 / 2)).toRat?
      = some (((268435456 : Int) : ℚ)) :=
    binary64.toRat?_mul_eq px (show (FloatVal.finite (1 / 2)).toRat? = some (1 / 2) from rfl)
      (((268435456 : Int) : ℚ)) (by norm_num)
      (exact64_int 268435456 rfl (by decide) (by decide))
  have x4 : (tileZoomTimes 32 ⟨16, 16, ⟨0, 0, 0⟩, 1⟩ 16777217 (1 / 4)).toRat?
      = some (((134217728 : Int) : ℚ)) :=
    binary64.toRat?_mul_eq px (show (FloatVal.finite (1 / 4)).toRat? = some (1 / 4) from rfl)
      (((134217728 : Int) : ℚ)) (by norm_num)
      (exact64_int 134217728 rfl (by decide) (by decide))
  have y2 := toRat?_tileZoomTimes 8 (by decide) (by decide) ⟨16, 16, ⟨0, 0, 0⟩, 1⟩ rfl 0 0
    (by decide) (by decide) (by decide) (1 / 2) 0 (by norm_num) (by decide) (by decide)
  have y4 := toRat?_tileZoomTimes 8 (by decide) (by decide) ⟨16, 16, ⟨0, 0, 0⟩, 1⟩ rfl 0 0
    (by decide) (by decide) (by decide) (1 / 4) 0 (by norm_num) (by decide) (by decide)
  rw [e32] at y2 y4
  have sx := binary64.toRat?_add_eq x2 y2 (((268435456 : Int) : ℚ)) (by norm_num)
    (exact64_int 268435456 rfl (by decide) (by decide))
  have sy := binary64.toRat?_sub_eq x4 y4 (((134217728 : Int) : ℚ)) (by norm_num)
    (exact64_int 134217728 rfl (by decide) (by decide))
  constructor
  · simp only [getScreenCoords, if_true,
      toInt_of_toRat?_int sx (by decide) (by decide),
      toInt_of_toRat?_int sy (by decide) (by decide)]
    rfl
  · have h := getIsoCoords_exact 8 (by decide) (by decide) ⟨16, 16, ⟨0, 0, 0⟩, 1⟩ rfl ⟨0, 0, 0⟩
      ⟨268435456, 134217728, 0⟩ true 16777216 0 (by decide) (by decide) (by decide) (by decide)
      (by decide) (by decide)
    rw [e32] at h
    rw [h]
    decide

end Map

/-! ## The heap kept by `RemovablePriorityQueue` -/

namespace GameClock

section HeapTheory

variable {Task : Type}

/-- The key at a position inside the container. -/
theorem keyAt_of_getElem? {K : Type} (key : Task → K) {q : List Task} {i : Nat} {a : Task}
    (h : q[i]? = some a) : keyAt key q i = (key a : WithTop K) := by
  simp [keyAt, h]

/-- The key at a position past the end. -/
theorem keyAt_of_le {K : Type} {key : Task → K} {q : List Task} {i : Nat} (h : q.length ≤ i) :
    keyAt key q i = ⊤ := by
  simp [keyAt, List.getElem?_eq_none h]

/-- The heap predicate in terms of keys, when `comp a b` says that the key of `a`
is the greater one: every element's key is at least its parent's. -/
theorem isHeap_iff {K : Type} [LinearOrder K] {comp : Task → Task → Bool} {key : Task → K}
    (hcomp : ∀ a b, comp a b = decide (key b < key a)) (q : List Task) :
    IsHeap comp q ↔ ∀ j, 0 < j → keyAt key q ((j - 1) / 2) ≤ keyAt key q j := by
  constructor
  · intro h j hj
    by_cases hjn : j < q.length
    · have hp : (j - 1) / 2 < q.length := by omega
      have h1 := h j hj q[(j - 1) / 2] q[j] (List.getElem?_eq_getElem hp)
        (List.getElem?_eq_getElem hjn)
      rw [keyAt_of_getElem? key (List.getElem?_eq_getElem hp),
        keyAt_of_getElem? key (List.getElem?_eq_getElem hjn), WithTop.coe_le_coe]
      rw [hcomp] at h1
      simpa using h1
    · rw [keyAt_of_le (by omega : q.length ≤ j)]
      exact le_top
  · intro h j hj a b ha hb
    have h1 := h j hj
    rw [keyAt_of_getElem? key ha, keyAt_of_getElem? key hb, WithTop.coe_le_coe] at h1
    rw [hcomp]
    simpa using h1

/-- Exchanging two elements keeps the length. -/
theorem length_swapAt (q : List Task) (i j : Nat) : (swapAt q i j).length = q.length := by
  unfold swapAt
  split <;> simp

/-- The elements of the container after an exchange of two positions inside it. -/
theorem getElem?_swapAt {q : List Task} {i j : Nat} (hi : i < q.length) (hj : j < q.length)
    (k : Nat) :
    (swapAt q i j)[k]? = if k = j then q[i]? else if k = i then q[j]? else q[k]? := by
  unfold swapAt
  rw [List.getElem?_eq_getElem hi, List.getElem?_eq_getElem hj]
  simp only [List.getElem?_set, List.length_set]
  split_ifs <;> first | rfl | (exfalso; omega)

/-- The keys of the container after an exchange of two positions inside it. -/
theorem keyAt_swapAt {K : Type} (key : Task → K) {q : List Task} {i j : Nat} (hi : i < q.length)
    (hj : j < q.length) (k : Nat) :
    keyAt key (swapAt q i j) k =
      if k = j then keyAt key q i else if k = i then keyAt key q j else keyAt key q k := by
  unfold keyAt
  rw [getElem?_swapAt hi hj]
  split_ifs <;> rfl

/-- Writing an element over itself changes nothing. -/
theorem set_getElem_same (q : List Task) (i : Nat) (h : i < q.length) : q.set i q[i] = q := by
  apply List.ext_getElem?
  intro k
  rw [List.getElem?_set]
  split_ifs with h1
  · subst h1
    exact (List.getElem?_eq_getElem h).symm
  · rfl

/-- Exchanging two elements rearranges the container. -/
theorem swapAt_perm (q : List Task) (i j : Nat) : (swapAt q i j).Perm q := by
  classical
  unfold swapAt
  split
  · rename_i a b ha hb
    obtain ⟨hi, rfl⟩ := List.getElem?_eq_some.mp ha
    obtain ⟨hj, rfl⟩ := List.getElem?_eq_some.mp hb
    by_cases hij : i = j
    · subst hij
      rw [List.set_set, set_getElem_same q i hi]
    · rw [List.perm_iff_count]
      intro x
      have hj2 : j < (q.set i q[j]).length := by simpa using hj
      rw [List.count_set _ _ _ _ hj2, List.count_set _ _ _ _ hi,
        List.getElem_set_ne hij]
      have h1 : q[i] = x → 0 < List.count x q := fun h =>
        List.count_pos_iff.mpr (h ▸ List.getElem_mem hi)
      have h2 : q[j] = x → 0 < List.count x q := fun h =>
        List.count_pos_iff.mpr (h ▸ List.getElem_mem hj)
      simp only [beq_iff_eq]
      split_ifs <;> simp_all
  · exact List.Perm.refl _

/-- Sift-up keeps the length. -/
theorem length_siftUp (comp : Task → Task → Bool) (fuel : Nat) (q : List Task) (i : Nat) :
    (siftUp comp fuel q i).length = q.length := by
  induction fuel generalizing q i with
  | zero => rfl
  | succ fuel ih =>
    unfold siftUp
    split_ifs
    · rfl
    · split
      · split_ifs
        · rw [ih, length_swapAt]
        · rfl
      · rfl

/-- Sift-up rearranges the container. -/
theorem siftUp_perm (comp : Task → Task → Bool) (fuel : Nat) (q : List Task) (i : Nat) :
    (siftUp comp fuel q i).Perm q := by
  induction fuel generalizing q i with
  | zero => exact List.Perm.refl _
  | succ fuel ih =>
    unfold siftUp
    split_ifs
    · exact List.Perm.refl _
    · split
      · split_ifs
        · exact (ih _ _).trans (swapAt_perm _ _ _)
        · exact List.Perm.refl _
      · exact List.Perm.refl _

/-- Sift-up restores the heap: when every parent/child pair not involving the
position `i` as the child is in order, and the children of `i` are in order with
the parent of `i`, the result of `siftUp` at `i` has every pair in order. -/
theorem siftUp_ordered {K : Type} [LinearOrder K] {comp : Task → Task → Bool} {key : Task → K}
    (hcomp : ∀ a b, comp a b = decide (key b < key a)) (fuel : Nat) (q : List Task) (i : Nat)
    (hfuel : i ≤ fuel) (hi : i < q.length)
    (h1 : ∀ j, 0 < j → j ≠ i → keyAt key q ((j - 1) / 2) ≤ keyAt key q j)
    (h2 : ∀ j, 0 < j → (j - 1) / 2 = i → 0 < i → keyAt key q ((i - 1) / 2) ≤ keyAt key q j) :
    ∀ j, 0 < j → keyAt key (siftUp comp fuel q i) ((j - 1) / 2) ≤ keyAt key (siftUp comp fuel q i) j := by
  induction fuel generalizing q i with
  | zero =>
    intro j hj
    exact h1 j hj (by omega)
  | succ fuel ih =>
    unfold siftUp
    by_cases hi0 : i = 0
    · rw [if_pos hi0]
      intro j hj
      exact h1 j hj (by omega)
    · rw [if_neg hi0]
      have hp : (i - 1) / 2 < q.length := by omega
      have hpi : (i - 1) / 2 < i := by omega
      rw [List.getElem?_eq_getElem hp, List.getElem?_eq_getElem hi]
      simp only
      have kp := keyAt_of_getElem? key (List.getElem?_eq_getElem hp)
      have ki := keyAt_of_getElem? key (List.getElem?_eq_getElem hi)
      by_cases hc : comp q[(i - 1) / 2] q[i] = true
      · rw [if_pos hc]
        rw [hcomp] at hc
        have hlt : keyAt key q i < keyAt key q ((i - 1) / 2) := by
          rw [kp, ki, WithTop.coe_lt_coe]
          simpa using hc
        have hs := keyAt_swapAt key hp hi
        apply ih (swapAt q ((i - 1) / 2) i) ((i - 1) / 2) (by omega)
          (by rw [length_swapAt]; exact hp)
        · intro j hj hjp
          rw [hs, hs]
          by_cases hji : j = i
          · subst hji
            rw [if_pos rfl, if_neg (by omega), if_pos rfl]
            exact le_of_lt hlt
          · rw [if_neg hji, if_neg hjp]
            by_cases hpj : (j - 1) / 2 = i
            · rw [if_pos hpj]
              have := h2 j hj hpj (by omega)
              exact this
            · rw [if_neg hpj]
              by_cases hpp : (j - 1) / 2 = (i - 1) / 2
              · rw [if_pos hpp]
                have := h1 j hj hji
                rw [hpp] at this
                exact le_trans (le_of_lt hlt) this
              · rw [if_neg hpp]
                exact h1 j hj hji
        · intro j hj hjp hp0
          rw [hs, hs]
          have hpp1 : ((i - 1) / 2 - 1) / 2 ≠ i := by omega
          have hpp2 : ((i - 1) / 2 - 1) / 2 ≠ (i - 1) / 2 := by omega
          rw [if_neg hpp1, if_neg hpp2]
          have hgp := h1 ((i - 1) / 2) hp0 (by omega)
          by_cases hji : j = i
          · rw [if_pos hji]
            exact hgp
          · rw [if_neg hji, if_neg (by omega)]
            have := h1 j hj hji
            rw [hjp] at this
            exact le_trans hgp this
      · rw [if_neg hc]
        intro j hj
        by_cases hji : j = i
        · subst hji
          rw [kp, ki, WithTop.coe_le_coe]
          rw [hcomp] at hc
          simpa using hc
        · exact h1 j hj hji

/-- The keys of the container after `push_back`. -/
theorem keyAt_append_singleton {K : Type} {key : Task → K} (q : List Task) (x : Task) (k : Nat) :
    keyAt key (q ++ [x]) k =
      if k < q.length then keyAt key q k else if k = q.length then (key x : WithTop K) else ⊤ := by
  unfold keyAt
  rw [List.getElem?_append]
  split_ifs with h1 h2
  · rfl
  · subst h2
    simp
  · have : [x][k - q.length]? = none := by
      apply List.getElem?_eq_none
      simp only [List.length_singleton]
      omega
    rw [this]

/-- After `push` the queue holds the pushed task and the tasks it held. -/
theorem push_perm (comp : Task → Task → Bool) (q : List Task) (x : Task) :
    (push comp q x).Perm (x :: q) := by
  unfold push
  exact (siftUp_perm _ _ _ _).trans (List.perm_append_singleton x q)

/-- The member `push` adds one to the size. -/
theorem length_push (comp : Task → Task → Bool) (q : List Task) (x : Task) :
    (push comp q x).length = q.length + 1 := by
  unfold push
  rw [length_siftUp]
  simp

/-- After `push` the container is a heap again. -/
theorem push_isHeap {K : Type} [LinearOrder K] {comp : Task → Task → Bool} {key : Task → K}
    (hcomp : ∀ a b, comp a b = decide (key b < key a)) (q : List Task) (x : Task)
    (h : IsHeap comp q) : IsHeap comp (push comp q x) := by
  rw [isHeap_iff hcomp] at h ⊢
  unfold push
  apply siftUp_ordered hcomp _ _ _ (le_refl _) (by simp)
  · intro j hj hjn
    rw [keyAt_append_singleton, keyAt_append_singleton]
    by_cases hlt : j < q.length
    · rw [if_pos hlt, if_pos (by omega)]
      exact h j hj
    · rw [if_neg hlt, if_neg hjn]
      exact le_top
  · intro j hj hjp _
    rw [keyAt_append_singleton _ _ j, if_neg (by omega), if_neg (by omega)]
    exact le_top

/-- The child picked is the left one, or the right one when that exists. -/
theorem pickChild_cases (comp : Task → Task → Bool) (q : List Task) (i : Nat) :
    pickChild comp q i = 2 * i + 1 ∨ (pickChild comp q i = 2 * i + 2 ∧ 2 * i + 2 < q.length) := by
  unfold pickChild
  split
  · rename_i l r hl hr
    split_ifs
    · exact Or.inr ⟨rfl, (List.getElem?_eq_some.mp hr).1⟩
    · exact Or.inl rfl
  · exact Or.inl rfl

/-- The child picked has the least key of the two children. -/
theorem keyAt_pickChild_le {K : Type} [LinearOrder K] {comp : Task → Task → Bool} {key : Task → K}
    (hcomp : ∀ a b, comp a b = decide (key b < key a)) (q : List Task) (i : Nat) :
    keyAt key q (pickChild comp q i) ≤ keyAt key q (2 * i + 1) ∧
      keyAt key q (pickChild comp q i) ≤ keyAt key q (2 * i + 2) := by
  unfold pickChild
  split
  · rename_i l r hl hr
    have kl := keyAt_of_getElem? key hl
    have kr := keyAt_of_getElem? key hr
    by_cases hc : comp l r = true
    · rw [if_pos hc, kl, kr]
      rw [hcomp] at hc
      have : key r < key l := by simpa using hc
      exact ⟨WithTop.coe_le_coe.mpr (le_of_lt this), le_refl _⟩
    · rw [if_neg hc, kl, kr]
      rw [hcomp] at hc
      have : key l ≤ key r := by simpa using hc
      exact ⟨le_refl _, WithTop.coe_le_coe.mpr this⟩
  · rename_i hnone
    refine ⟨le_refl _, ?_⟩
    by_cases h2 : 2 * i + 2 < q.length
    · exact absurd (List.getElem?_eq_getElem h2)
        (hnone _ _ (List.getElem?_eq_getElem (by omega : 2 * i + 1 < q.length)))
    · rw [keyAt_of_le (by omega : q.length ≤ 2 * i + 2)]
      exact le_top

/-- Sift-down keeps the length. -/
theorem length_siftDown (comp : Task → Task → Bool) (fuel : Nat) (q : List Task) (i : Nat) :
    (siftDown comp fuel q i).length = q.length := by
  induction fuel generalizing q i with
  | zero => rfl
  | succ fuel ih =>
    unfold siftDown
    split
    · split_ifs
      · rw [ih, length_swapAt]
      · rfl
    · rfl

/-- Sift-down rearranges the container. -/
theorem siftDown_perm (comp : Task → Task → Bool) (fuel : Nat) (q : List Task) (i : Nat) :
    (siftDown comp fuel q i).Perm q := by
  induction fuel generalizing q i with
  | zero => exact List.Perm.refl _
  | succ fuel ih =>
    unfold siftDown
    split
    · split_ifs
      · exact (ih _ _).trans (swapAt_perm _ _ _)
      · exact List.Perm.refl _
    · exact List.Perm.refl _

/-- Sift-down restores the heap below `k`: when every parent/child pair whose
parent is at `k` or later and is not `i` is in order, and the children of `i`
are in order with the parent of `i`, then after `siftDown` at `i` every pair
whose parent is at `k` or later is in order. -/
theorem siftDown_ordered {K : Type} [LinearOrder K] {comp : Task → Task → Bool} {key : Task → K}
    (hcomp : ∀ a b, comp a b = decide (key b < key a)) (k fuel : Nat) (q : List Task) (i : Nat)
    (hfuel : q.length ≤ i + fuel) (hk : k ≤ i)
    (h1 : ∀ j, 0 < j → (j - 1) / 2 ≠ i → k ≤ (j - 1) / 2 →
      keyAt key q ((j - 1) / 2) ≤ keyAt key q j)
    (h2 : ∀ j, 0 < j → (j - 1) / 2 = i → 0 < i → k ≤ (i - 1) / 2 →
      keyAt key q ((i - 1) / 2) ≤ keyAt key q j) :
    ∀ j, 0 < j → k ≤ (j - 1) / 2 →
      keyAt key (siftDown comp fuel q i) ((j - 1) / 2) ≤ keyAt key (siftDown comp fuel q i) j := by
  induction fuel generalizing q i with
  | zero =>
    intro j hj hkj
    by_cases hpj : (j - 1) / 2 = i
    · rw [siftDown, keyAt_of_le (by omega : q.length ≤ j)]
      exact le_top
    · exact h1 j hj hpj hkj
  | succ fuel ih =>
    unfold siftDown
    split
    · rename_i value child hv hch
      obtain ⟨hi, rfl⟩ := List.getElem?_eq_some.mp hv
      obtain ⟨hm, rfl⟩ := List.getElem?_eq_some.mp hch
      have ki := keyAt_of_getElem? key hv
      have km := keyAt_of_getElem? key hch
      have hle := keyAt_pickChild_le hcomp q i
      have hcases := pickChild_cases comp q i
      generalize pickChild comp q i = m at *
      by_cases hc : comp q[i] q[m] = true
      · rw [if_pos hc]
        rw [hcomp] at hc
        have hlt : keyAt key q m < keyAt key q i := by
          rw [ki, km, WithTop.coe_lt_coe]
          simpa using hc
        have hs := keyAt_swapAt key hi hm
        apply ih (swapAt q i m) m (by rw [length_swapAt]; omega) (by omega)
        · intro j hj hpj hkj
          rw [hs, hs]
          by_cases hpi : (j - 1) / 2 = i
          · rw [hpi, if_neg (by omega : ¬ i = m), if_pos rfl]
            by_cases hjm : j = m
            · rw [if_pos hjm]
              exact le_of_lt hlt
            · rw [if_neg hjm, if_neg (by omega)]
              rcases (by omega : j = 2 * i + 1 ∨ j = 2 * i + 2) with h | h
              · rw [h]; exact hle.1
              · rw [h]; exact hle.2
          · rw [if_neg hpj, if_neg hpi]
            by_cases hji : j = i
            · rw [if_neg (by omega), if_pos hji]
              have := h2 m (by omega) (by omega) (by omega) (by rw [← hji]; exact hkj)
              rw [hji]
              exact this
            · rw [if_neg (by omega), if_neg hji]
              exact h1 j hj hpi hkj
        · intro j hj hpj hm0 _
          rw [hs, hs]
          have e : (m - 1) / 2 = i := by omega
          rw [e, if_neg (by omega), if_pos rfl, if_neg (by omega), if_neg (by omega)]
          have := h1 j hj (by omega) (by omega)
          rw [hpj] at this
          exact this
      · rw [if_neg hc]
        intro j hj hkj
        by_cases hpj : (j - 1) / 2 = i
        · have him : keyAt key q i ≤ keyAt key q m := by
            rw [ki, km, WithTop.coe_le_coe]
            rw [hcomp] at hc
            simpa using hc
          rw [hpj]
          rcases (by omega : j = 2 * i + 1 ∨ j = 2 * i + 2) with h | h
          · rw [h]; exact le_trans him hle.1
          · rw [h]; exact le_trans him hle.2
        · exact h1 j hj hpj hkj
    · rename_i hnone
      intro j hj hkj
      by_cases hpj : (j - 1) / 2 = i
      · have hcases := pickChild_cases comp q i
        have : q.length ≤ j := by
          by_contra hlt
          have hi : i < q.length := by omega
          have hm : pickChild comp q i < q.length := by omega
          exact hnone _ _ (List.getElem?_eq_getElem hi) (List.getElem?_eq_getElem hm)
        rw [keyAt_of_le this]
        exact le_top
      · exact h1 j hj hpj hkj

/-- The keys of the container after `pop_back`. -/
theorem keyAt_dropLast {K : Type} {key : Task → K} (q : List Task) (k : Nat) :
    keyAt key q.dropLast k = if k < q.length - 1 then keyAt key q k else ⊤ := by
  unfold keyAt
  rw [List.getElem?_dropLast]
  split_ifs <;> rfl

/-- The empty container is a heap. -/
theorem isHeap_nil (comp : Task → Task → Bool) : IsHeap comp ([] : List Task) := by
  intro j _ a b ha
  simp at ha

/-- The member `top` reads position 0. -/
theorem top_eq_some_iff {q : List Task} {t : Task} : top q = some t ↔ q[0]? = some t := by
  unfold top
  cases q <;> simp

/-- The front of a non-empty queue together with what `pop` leaves is a
rearrangement of the queue. -/
theorem pop_perm (comp : Task → Task → Bool) {q : List Task} {t : Task} (ht : top q = some t) :
    q.Perm (t :: pop comp q) := by
  rw [top_eq_some_iff] at ht
  obtain ⟨h0, rfl⟩ := List.getElem?_eq_some.mp ht
  have hl : q.length - 1 < q.length := by omega
  have hlast : (swapAt q 0 (q.length - 1)).getLast? = some q[0] := by
    rw [List.getLast?_eq_getElem?, length_swapAt, getElem?_swapAt h0 hl, if_pos rfl]
    exact List.getElem?_eq_getElem h0
  have hsplit := List.dropLast_append_getLast? _ hlast
  unfold pop
  refine List.Perm.trans ?_ (List.Perm.cons _ (siftDown_perm _ _ _ _).symm)
  refine List.Perm.trans (swapAt_perm q 0 (q.length - 1)).symm ?_
  conv_lhs => rw [← hsplit]
  exact List.perm_append_singleton _ _

/-- The member `pop` takes one from the size. -/
theorem length_pop (comp : Task → Task → Bool) (q : List Task) :
    (pop comp q).length = q.length - 1 := by
  unfold pop
  rw [length_siftDown, List.length_dropLast, length_swapAt]

/-- After `pop` the container is a heap again. -/
theorem pop_isHeap {K : Type} [LinearOrder K] {comp : Task → Task → Bool} {key : Task → K}
    (hcomp : ∀ a b, comp a b = decide (key b < key a)) (q : List Task)
    (h : IsHeap comp q) : IsHeap comp (pop comp q) := by
  rw [isHeap_iff hcomp] at h ⊢
  by_cases hq : q.length = 0
  · have : q = [] := List.length_eq_zero.mp hq
    subst this
    intro j hj
    rw [keyAt_of_le (by rw [length_pop]; simp)]
    exact le_top
  · unfold pop
    have h0 : 0 < q.length := by omega
    have hl : q.length - 1 < q.length := by omega
    have hs := keyAt_swapAt key h0 hl
    intro j hj
    refine siftDown_ordered hcomp 0 _ _ 0 ?_ (le_refl _) ?_ ?_ j hj (Nat.zero_le _)
    · rw [List.length_dropLast, length_swapAt]
      omega
    · intro j hj hpj _
      rw [keyAt_dropLast, keyAt_dropLast, length_swapAt]
      by_cases hlt : j < q.length - 1
      · rw [if_pos hlt, if_pos (by omega), hs, hs, if_neg (by omega), if_neg (by omega),
          if_neg (by omega), if_neg (by omega)]
        exact h j hj
      · rw [if_neg hlt]
        exact le_top
    · intro j _ _ h00
      exact absurd h00 (lt_irrefl 0)

/-- In a heap no element has a smaller key than the front. -/
theorem keyAt_zero_le {K : Type} [LinearOrder K] {comp : Task → Task → Bool} {key : Task → K}
    (hcomp : ∀ a b, comp a b = decide (key b < key a)) (q : List Task) (h : IsHeap comp q)
    (j : Nat) : keyAt key q 0 ≤ keyAt key q j := by
  rw [isHeap_iff hcomp] at h
  induction j using Nat.strong_induction_on with
  | _ j ih =>
    by_cases hj : j = 0
    · subst hj
      exact le_refl _
    · exact le_trans (ih ((j - 1) / 2) (by omega)) (h j (by omega))

/-- The top of a heap has the least key of the queue. -/
theorem top_le_of_mem {K : Type} [LinearOrder K] {comp : Task → Task → Bool} {key : Task → K}
    (hcomp : ∀ a b, comp a b = decide (key b < key a)) {q : List Task} (h : IsHeap comp q)
    {t x : Task} (ht : top q = some t) (hx : x ∈ q) : key t ≤ key x := by
  rw [top_eq_some_iff] at ht
  obtain ⟨j, hj⟩ := List.mem_iff_getElem?.mp hx
  have := keyAt_zero_le hcomp q h j
  rwa [keyAt_of_getElem? key ht, keyAt_of_getElem? key hj, WithTop.coe_le_coe] at this

/-- After a sequence of pushes the queue holds the pushed tasks and the tasks it
held. -/
theorem pushAll_perm (comp : Task → Task → Bool) (q xs : List Task) :
    (pushAll comp q xs).Perm (xs ++ q) := by
  induction xs generalizing q with
  | nil => exact List.Perm.refl _
  | cons x xs ih =>
    have h1 : (pushAll comp q (x :: xs)) = pushAll comp (push comp q x) xs := rfl
    rw [h1]
    refine (ih _).trans ?_
    refine (List.Perm.append_left xs (push_perm comp q x)).trans ?_
    exact List.perm_middle

/-- A sequence of pushes keeps the container a heap. -/
theorem pushAll_isHeap {K : Type} [LinearOrder K] {comp : Task → Task → Bool} {key : Task → K}
    (hcomp : ∀ a b, comp a b = decide (key b < key a)) (q xs : List Task)
    (h : IsHeap comp q) : IsHeap comp (pushAll comp q xs) := by
  induction xs generalizing q with
  | nil => exact h
  | cons x xs ih => exact ih _ (push_isHeap hcomp q x h)

/-- Emptying a heap by `top()` / `pop()` lists its elements by non-decreasing
key. -/
theorem popAll_sorted {K : Type} [LinearOrder K] {comp : Task → Task → Bool} {key : Task → K}
    (hcomp : ∀ a b, comp a b = decide (key b < key a)) (n : Nat) (q : List Task)
    (hn : q.length ≤ n) (h : IsHeap comp q) :
    (popAll comp n q).Perm q ∧ (popAll comp n q).Pairwise (fun a b => key a ≤ key b) := by
  induction n generalizing q with
  | zero =>
    have : q = [] := List.length_eq_zero.mp (by omega)
    subst this
    exact ⟨List.Perm.refl _, List.Pairwise.nil⟩
  | succ n ih =>
    unfold popAll
    cases ht : top q with
    | none =>
      have : q = [] := by
        unfold top at ht
        exact List.head?_eq_none_iff.mp ht
      subst this
      exact ⟨List.Perm.refl _, List.Pairwise.nil⟩
    | some t =>
      simp only
      have hp := pop_perm comp ht
      obtain ⟨ih1, ih2⟩ := ih (pop comp q) (by rw [length_pop]; omega) (pop_isHeap hcomp q h)
      refine ⟨(List.Perm.cons t ih1).trans hp.symm, List.Pairwise.cons ?_ ih2⟩
      intro y hy
      have hy1 : y ∈ pop comp q := ih1.mem_iff.mp hy
      have hy2 : y ∈ q := hp.mem_iff.mpr (List.mem_cons_of_mem _ hy1)
      exact top_le_of_mem hcomp h ht hy2

/-- Emptying a heap yields the tasks it held, by non-decreasing key. -/
theorem drain_sorted {K : Type} [LinearOrder K] {comp : Task → Task → Bool} {key : Task → K}
    (hcomp : ∀ a b, comp a b = decide (key b < key a)) (q : List Task) (h : IsHeap comp q) :
    (drain comp q).Perm q ∧ (drain comp q).Pairwise (fun a b => key a ≤ key b) :=
  popAll_sorted hcomp q.length q (le_refl _) h

end HeapTheory

/-- The comparison of real-time tasks compares the wake times. -/
theorem realTime_gt_eq (a b : RealTimeClockTask) :
    a.gt b = decide (b.m_waketime < a.m_waketime) := rfl

/-- The comparison of game-time tasks compares the wake ticks. -/
theorem gameTime_gt_eq (a b : GameTimeClockTask) :
    a.gt b = decide (b.m_waketime < a.m_waketime) := rfl

/-- The keys of the tasks that come out of a queue filled from empty are the
keys of the pushed tasks in non-decreasing order. -/
theorem map_key_drain_pushAll {Task K : Type} [LinearOrder K] {comp : Task → Task → Bool}
    {key : Task → K} (hcomp : ∀ a b, comp a b = decide (key b < key a)) (ts : List Task)
    (sorted : List K) (hperm : (ts.map key).Perm sorted) (hsorted : sorted.Sorted (· ≤ ·)) :
    (drain comp (pushAll comp [] ts)).map key = sorted := by
  obtain ⟨h1, h2⟩ := drain_sorted hcomp _ (pushAll_isHeap hcomp [] ts (isHeap_nil _))
  have hp : (drain comp (pushAll comp [] ts)).Perm ts :=
    h1.trans (by simpa using pushAll_perm comp [] ts)
  refine List.eq_of_perm_of_sorted ((hp.map key).trans hperm) ?_ hsorted
  exact List.pairwise_map.mpr h2

/-- C1: for every finite sequence of tasks pushed into a
`RemovablePriorityQueue` (real-time or game-time), repeatedly taking the top
task and popping it yields exactly the pushed tasks, in non-decreasing
wake-time order: no task with an earlier wake-key comes out after one with a
later wake-key. Tasks pushed with wake-keys 5, 1, 3 come out in the order
1, 3, 5. -/
theorem drain_in_wake_order :
    (∀ ts : List RealTimeClockTask,
      (drain RealTimeClockTask.gt (pushAll RealTimeClockTask.gt [] ts)).Perm ts ∧
      (drain RealTimeClockTask.gt (pushAll RealTimeClockTask.gt [] ts)).Pairwise
        (fun a b => a.m_waketime ≤ b.m_waketime)) ∧
    (∀ ts : List GameTimeClockTask,
      (drain GameTimeClockTask.gt (pushAll GameTimeClockTask.gt [] ts)).Perm ts ∧
      (drain GameTimeClockTask.gt (pushAll GameTimeClockTask.gt [] ts)).Pairwise
        (fun a b => a.m_waketime ≤ b.m_waketime)) ∧
    (∀ t1 t2 t3 : RealTimeClockTask,
      t1.m_waketime = 5 → t2.m_waketime = 1 → t3.m_waketime = 3 →
      (drain RealTimeClockTask.gt (pushAll RealTimeClockTask.gt [] [t1, t2, t3])).map
        (fun t => t.m_waketime) = [1, 3, 5]) ∧
    (∀ t1 t2 t3 : GameTimeClockTask,
      t1.m_waketime = 5 → t2.m_waketime = 1 → t3.m_waketime = 3 →
      (drain GameTimeClockTask.gt (pushAll GameTimeClockTask.gt [] [t1, t2, t3])).map
        (fun t => t.m_waketime) = [1, 3, 5]) := by
  refine ⟨?_, ?_, ?_, ?_⟩
  · intro ts
    have hh := pushAll_isHeap realTime_gt_eq [] ts (isHeap_nil _)
    obtain ⟨h1, h2⟩ := drain_sorted realTime_gt_eq _ hh
    exact ⟨h1.trans (by simpa using pushAll_perm RealTimeClockTask.gt [] ts), h2⟩
  · intro ts
    have hh := pushAll_isHeap gameTime_gt_eq [] ts (isHeap_nil _)
    obtain ⟨h1, h2⟩ := drain_sorted gameTime_gt_eq _ hh
    exact ⟨h1.trans (by simpa using pushAll_perm GameTimeClockTask.gt [] ts), h2⟩
  · intro t1 t2 t3 e1 e2 e3
    apply map_key_drain_pushAll realTime_gt_eq
    · simp only [List.map, e1, e2, e3]
      exact (List.perm_append_singleton (5 : ℚ) [1, 3]).symm
    · simp [List.Sorted]
      norm_num
  · intro t1 t2 t3 e1 e2 e3
    apply map_key_drain_pushAll gameTime_gt_eq
    · simp only [List.map, e1, e2, e3]
      exact (List.perm_append_singleton (5 : ℕ) [1, 3]).symm
    · simp [List.Sorted]

/-- The theorem `drain_in_wake_order` on three real-time tasks with wake times
5, 1, 3 and three game-time tasks with wake ticks 5, 1, 3. -/
theorem drain_in_wake_order_witness :
    (drain RealTimeClockTask.gt (pushAll RealTimeClockTask.gt []
        [⟨10, 5, 0, 1⟩, ⟨11, 1, 0, 2⟩, ⟨12, 3, 0, 3⟩])).map (fun t => t.m_waketime) = [1, 3, 5] ∧
    (drain GameTimeClockTask.gt (pushAll GameTimeClockTask.gt []
        [⟨10, 5, 0, 1⟩, ⟨11, 1, 0, 2⟩, ⟨12, 3, 0, 3⟩])).map (fun t => t.m_waketime) = [1, 3, 5] :=
  ⟨drain_in_wake_order.2.2.1 _ _ _ rfl rfl rfl, drain_in_wake_order.2.2.2 _ _ _ rfl rfl rfl⟩

section RemoveTheory

variable {Task : Type}

/-- A series of sift-downs rearranges the container. -/
theorem foldr_siftDown_perm (comp : Task → Task → Bool) (q : List Task) (l : List Nat) :
    (l.foldr (fun i acc => siftDown comp (acc.length - i) acc i) q).Perm q := by
  induction l with
  | nil => exact List.Perm.refl _
  | cons i l ih => exact (siftDown_perm _ _ _ _).trans ih

/-- The algorithm `std::make_heap` rearranges the container. -/
theorem makeHeap_perm (comp : Task → Task → Bool) (q : List Task) :
    (makeHeap comp q).Perm q :=
  foldr_siftDown_perm comp q _

/-- The sift-downs of `std::make_heap` at the positions `m + len - 1`, ..., `m`,
where `m + len` is half the length, put every parent at `m` or later in order
with its children. -/
theorem foldr_siftDown_ordered {K : Type} [LinearOrder K] {comp : Task → Task → Bool} {key : Task → K}
    (hcomp : ∀ a b, comp a b = decide (key b < key a)) (q : List Task) (len m : Nat)
    (hm : m + len = q.length / 2) :
    ((List.range' m len).foldr (fun i acc => siftDown comp (acc.length - i) acc i) q).length
        = q.length ∧
      ∀ j, 0 < j → m ≤ (j - 1) / 2 →
        keyAt key ((List.range' m len).foldr
            (fun i acc => siftDown comp (acc.length - i) acc i) q) ((j - 1) / 2)
          ≤ keyAt key ((List.range' m len).foldr
            (fun i acc => siftDown comp (acc.length - i) acc i) q) j := by
  induction len generalizing m with
  | zero =>
    refine ⟨rfl, ?_⟩
    intro j hj hmj
    simp only [List.range'_zero, List.foldr_nil]
    rw [keyAt_of_le (by omega : q.length ≤ j)]
    exact le_top
  | succ len ih =>
    obtain ⟨ih1, ih2⟩ := ih (m + 1) (by omega)
    rw [List.range'_succ, List.foldr_cons]
    refine ⟨by rw [length_siftDown, ih1], ?_⟩
    apply siftDown_ordered hcomp m _ _ m (by omega) (le_refl _)
    · intro j hj hpj hmj
      exact ih2 j hj (by omega)
    · intro j _ _ hm0 hmm
      omega

/-- After `std::make_heap` the container is a heap. -/
theorem makeHeap_isHeap {K : Type} [LinearOrder K] {comp : Task → Task → Bool} {key : Task → K}
    (hcomp : ∀ a b, comp a b = decide (key b < key a)) (q : List Task) :
    IsHeap comp (makeHeap comp q) := by
  rw [isHeap_iff hcomp]
  intro j hj
  unfold makeHeap
  rw [List.range_eq_range']
  exact (foldr_siftDown_ordered hcomp q (q.length / 2) 0 (by omega)).2 j hj (Nat.zero_le _)

/-- The result of `remove` tells whether a task with the handle was in the queue. -/
theorem remove_fst (comp : Task → Task → Bool) (hndlOf : Task → ClockTaskHndl) (q : List Task)
    (hndl : ClockTaskHndl) :
    (remove comp hndlOf q hndl).1 = q.any (fun t => hndlOf t == hndl) := by
  unfold remove
  split_ifs with h
  · exact h.symm
  · simpa using h

/-- After `remove` the queue holds the tasks it held, without the first one that
carries the handle. -/
theorem remove_snd_perm (comp : Task → Task → Bool) (hndlOf : Task → ClockTaskHndl)
    (q : List Task) (hndl : ClockTaskHndl) :
    (remove comp hndlOf q hndl).2.Perm (q.eraseP (fun t => hndlOf t == hndl)) := by
  unfold remove
  split_ifs with h
  · exact makeHeap_perm _ _
  · rw [List.eraseP_of_forall_not]
    intro t ht hp
    exact h (List.any_eq_true.mpr ⟨t, ht, hp⟩)

/-- The member `remove` leaves a queue without the handle as it is and returns
false. -/
theorem remove_of_not_any (comp : Task → Task → Bool) (hndlOf : Task → ClockTaskHndl)
    (q : List Task) (hndl : ClockTaskHndl) (h : q.any (fun t => hndlOf t == hndl) = false) :
    remove comp hndlOf q hndl = (false, q) := by
  unfold remove
  rw [if_neg (by simp [h])]

/-- After `remove` the container is a heap, as it was before. -/
theorem remove_isHeap {K : Type} [LinearOrder K] {comp : Task → Task → Bool} {key : Task → K}
    (hcomp : ∀ a b, comp a b = decide (key b < key a)) (hndlOf : Task → ClockTaskHndl)
    (q : List Task) (hndl : ClockTaskHndl) (h : IsHeap comp q) :
    IsHeap comp (remove comp hndlOf q hndl).2 := by
  unfold remove
  split_ifs
  · exact makeHeap_isHeap hcomp _
  · exact h

/-- Erasing the first element that satisfies `p` takes one from the number of
elements that satisfy `p`. -/
theorem countP_eraseP (p : Task → Bool) (q : List Task) :
    (q.eraseP p).countP p = q.countP p - 1 := by
  induction q with
  | nil => rfl
  | cons a q ih =>
    by_cases ha : p a = true
    · rw [List.eraseP_cons_of_pos ha, List.countP_cons_of_pos _ _ ha]
      omega
    · rw [List.eraseP_cons_of_neg ha, List.countP_cons_of_neg _ _ ha,
        List.countP_cons_of_neg _ _ ha, ih]

/-- The member `remove` takes one from the number of tasks that carry the handle. -/
theorem countP_remove (comp : Task → Task → Bool) (hndlOf : Task → ClockTaskHndl)
    (q : List Task) (hndl : ClockTaskHndl) :
    (remove comp hndlOf q hndl).2.countP (fun t => hndlOf t == hndl)
      = q.countP (fun t => hndlOf t == hndl) - 1 := by
  rw [(remove_snd_perm comp hndlOf q hndl).countP_eq, countP_eraseP]

/-- No element satisfies `p` exactly when the number of those that do is 0. -/
theorem any_eq_false_iff_countP (p : Task → Bool) (q : List Task) :
    q.any p = false ↔ q.countP p = 0 := by
  rw [List.countP_eq_zero]
  simp

end RemoveTheory

end GameClock

/-! ## Handles -/

namespace GameClock

/-- A successful registration returns the next handle and stores it in the
handle counter. -/
theorem register_handle (s : GameClock) (r : Registration) (hr : r.succeeds = true) :
    (register s r).1 = nextHandle s.m_unique_handle ∧
      (register s r).2.m_unique_handle = nextHandle s.m_unique_handle := by
  cases r with
  | realTime now cbk delay period =>
    simp only [Registration.succeeds, Bool.and_eq_true, decide_eq_true_eq] at hr
    simp only [register, addRealTimeClockTask]
    rw [if_neg (by rw [not_or, not_lt, not_lt]; exact hr)]
    exact ⟨rfl, rfl⟩
  | gameTime cbk delay period => exact ⟨rfl, rfl⟩

/-- The handles returned by successful registrations count up from the handle
counter. -/
theorem registerAll_handles (rs : List Registration) (hrs : ∀ r ∈ rs, r.succeeds = true)
    (s : GameClock) :
    (registerAll s rs).1 = (List.range rs.length).map (fun i => s.m_unique_handle + i + 1) := by
  induction rs generalizing s with
  | nil => rfl
  | cons r rs ih =>
    obtain ⟨h1, h2⟩ := register_handle s r (hrs r (List.mem_cons_self _ _))
    have ih1 := ih (fun x hx => hrs x (List.mem_cons_of_mem _ hx)) (register s r).2
    simp only [registerAll, List.length_cons]
    rw [List.range_succ_eq_map, List.map_cons, List.map_map, ih1, h1, h2]
    refine congrArg₂ _ rfl (List.map_congr_left ?_)
    intro i _
    simp only [Function.comp, Nat.succ_eq_add_one, nextHandle]
    ring

/-- C2: for every `N`, `N` sequential successful registrations
(`addRealTimeClockTask` / `addGameTimeClockTask`, in any mix) on a clock whose
handle counter starts at 0 return pairwise distinct handles, none of which
equals `ClockTaskHndlInvalid` (0). Every handle returned is at most `N`, so it
is a value of `unsigned long` whenever `N` is. -/
theorem handles_distinct_nonzero (s : GameClock) (rs : List Registration)
    (hs : s.m_unique_handle = 0) (hrs : ∀ r ∈ rs, r.succeeds = true) :
    (registerAll s rs).1.Nodup ∧
    (∀ h ∈ (registerAll s rs).1, h ≠ ClockTaskHndlInvalid) ∧
    (∀ h ∈ (registerAll s rs).1, h ≤ rs.length) := by
  have h1 : (registerAll s rs).1 = (List.range rs.length).map (fun i => i + 1) := by
    rw [registerAll_handles rs hrs s, hs]
    apply List.map_congr_left
    intro i _
    rw [Nat.zero_add]
  refine ⟨?_, ?_, ?_⟩
  · rw [h1]
    exact (List.nodup_range _).map (fun a b hab => by simpa using hab)
  · intro h hh
    rw [h1, List.mem_map] at hh
    obtain ⟨i, _, rfl⟩ := hh
    simp [ClockTaskHndlInvalid]
  · intro h hh
    rw [h1, List.mem_map] at hh
    obtain ⟨i, hi, rfl⟩ := hh
    rw [List.mem_range] at hi
    exact hi

/-- The hypotheses of `handles_distinct_nonzero` hold for two game-time
registrations and a real-time one on a fresh clock: the three handles returned
are distinct, none is 0 and none is above 3. -/
theorem handles_distinct_nonzero_witness :
    (registerAll (init 0) [.gameTime 0 10 0, .realTime 0 1 5 0, .gameTime 2 4 4]).1.Nodup ∧
    (∀ h ∈ (registerAll (init 0) [.gameTime 0 10 0, .realTime 0 1 5 0, .gameTime 2 4 4]).1,
      h ≠ ClockTaskHndlInvalid) ∧
    (∀ h ∈ (registerAll (init 0) [.gameTime 0 10 0, .realTime 0 1 5 0, .gameTime 2 4 4]).1,
      h ≤ 3) :=
  handles_distinct_nonzero (init 0) [.gameTime 0 10 0, .realTime 0 1 5 0, .gameTime 2 4 4]
    rfl (by decide)

end GameClock

/-! ## Removal -/

namespace GameClock

/-- The top of a queue is one of its tasks. -/
theorem mem_of_top {Task : Type} {q : List Task} {t : Task} (h : top q = some t) : t ∈ q := by
  rw [top_eq_some_iff] at h
  exact List.mem_iff_getElem?.mpr ⟨0, h⟩

/-- The tasks left by `pop` were in the queue. -/
theorem mem_of_mem_pop {Task : Type} (comp : Task → Task → Bool) {q : List Task} {t x : Task}
    (h : top q = some t) (hx : x ∈ pop comp q) : x ∈ q :=
  (pop_perm comp h).mem_iff.mpr (List.mem_cons_of_mem _ hx)

/-- A property of tasks that the continuation of a task inherits holds for
every task that the loop of `tick` fires or leaves in the store, when it holds
for every task of the store. -/
theorem tickTaskLoop_forall {Task : Type} (comp : Task → Task → Bool) (due : Task → Bool)
    (rearm : Task → Option Task) (P : Task → Prop)
    (hrearm : ∀ t t1, rearm t = some t1 → P t → P t1) (fuel : Nat) (q fired : List Task)
    (hq : ∀ t ∈ q, P t) (hf : ∀ t ∈ fired, P t) :
    (∀ t ∈ (tickTaskLoop comp due rearm fuel q fired).1, P t) ∧
      (∀ t ∈ (tickTaskLoop comp due rearm fuel q fired).2, P t) := by
  induction fuel generalizing q fired with
  | zero => exact ⟨hq, hf⟩
  | succ fuel ih =>
    unfold tickTaskLoop
    cases ht : top q with
    | none => exact ⟨hq, hf⟩
    | some task =>
      simp only
      have hPt : P task := hq task (mem_of_top ht)
      have hpop : ∀ t ∈ pop comp q, P t := fun t h => hq t (mem_of_mem_pop comp ht h)
      have hfired : ∀ t ∈ fired ++ [task], P t := by
        intro t h
        rcases List.mem_append.mp h with h | h
        · exact hf t h
        · rw [List.mem_singleton.mp h]
          exact hPt
      by_cases hd : due task = true
      · rw [if_pos hd]
        cases hr : rearm task with
        | none => exact ih _ _ hpop hfired
        | some next =>
          refine ih _ _ ?_ hfired
          intro t h
          rcases List.mem_cons.mp ((push_perm comp _ next).mem_iff.mp h) with h | h
          · rw [h]
            exact hrearm task next hr hPt
          · exact hpop t h
      · rw [if_neg hd]
        exact ⟨hq, hf⟩

/-- The loop of `tick` adds no handle to a store: when the continuation of a
task carries the handle of the task, the handles of the store that the loop
leaves are among the handles of the store it started from, each as often at
most. -/
theorem tickTaskLoop_handles {Task : Type} (comp : Task → Task → Bool) (due : Task → Bool)
    (rearm : Task → Option Task) (hndlOf : Task → ClockTaskHndl)
    (hrearm : ∀ t t1, rearm t = some t1 → hndlOf t1 = hndlOf t) (fuel : Nat)
    (q fired : List Task) :
    ((tickTaskLoop comp due rearm fuel q fired).1.map hndlOf).Subperm (q.map hndlOf) := by
  induction fuel generalizing q fired with
  | zero => exact List.Subperm.refl _
  | succ fuel ih =>
    unfold tickTaskLoop
    cases ht : top q with
    | none => exact List.Subperm.refl _
    | some task =>
      simp only
      have hq : (q.map hndlOf).Perm (hndlOf task :: (pop comp q).map hndlOf) :=
        (pop_perm comp ht).map hndlOf
      by_cases hd : due task = true
      · rw [if_pos hd]
        cases hr : rearm task with
        | none =>
          exact (ih _ _).trans ((List.Subperm.cons_self).trans hq.symm.subperm)
        | some next =>
          refine (ih _ _).trans ?_
          have hp : ((push comp (pop comp q) next).map hndlOf).Perm
              (hndlOf task :: (pop comp q).map hndlOf) := by
            rw [← hrearm task next hr]
            exact (push_perm comp _ next).map hndlOf
          exact (hp.trans hq.symm).subperm
      · rw [if_neg hd]

/-- The continuation of a real-time task keeps its handle. -/
theorem realTime_hndl_rearm (skipMissed : Bool) (now : TimePoint) (t t1 : RealTimeClockTask)
    (h : t.rearm skipMissed now = some t1) : t1.hndl = t.hndl := by
  unfold RealTimeClockTask.rearm at h
  split_ifs at h <;> rw [← Option.some.inj h]

/-- The continuation of a game-time task keeps its handle. -/
theorem gameTime_hndl_rearm (skipMissed : Bool) (now : GameClockTime) (t t1 : GameTimeClockTask)
    (h : t.rearm skipMissed now = some t1) : t1.hndl = t.hndl := by
  unfold GameTimeClockTask.rearm at h
  split_ifs at h <;> rw [← Option.some.inj h]

/-- A handle is not held exactly when no task of either store carries it. -/
theorem holdsTask_eq_false_iff (s : GameClock) (hndl : ClockTaskHndl) :
    holdsTask s hndl = false ↔
      (∀ t ∈ s.m_realTimeTasks, t.hndl ≠ hndl) ∧ (∀ t ∈ s.m_gameTimeTasks, t.hndl ≠ hndl) := by
  simp [holdsTask]

/-- A handle that no stored task carries is not fired by `tick` and is not
carried by any stored task afterwards. -/
theorem tick_not_fired (skipMissed : Bool) (now : TimePoint) (s : GameClock)
    (hndl : ClockTaskHndl) (h : holdsTask s hndl = false) :
    (∀ t ∈ (tick skipMissed now s).firedRealTime, t.hndl ≠ hndl) ∧
      (∀ t ∈ (tick skipMissed now s).firedGameTime, t.hndl ≠ hndl) ∧
      holdsTask (tick skipMissed now s).clock hndl = false := by
  rw [holdsTask_eq_false_iff] at h ⊢
  obtain ⟨hr1, hr2⟩ := tickTaskLoop_forall RealTimeClockTask.gt (RealTimeClockTask.due now)
    (RealTimeClockTask.rearm skipMissed now) (fun t => t.hndl ≠ hndl)
    (fun t t1 h1 h2 => by
      show t1.hndl ≠ hndl
      rw [realTime_hndl_rearm skipMissed now t t1 h1]
      exact h2)
    ((s.m_realTimeTasks.map (RealTimeClockTask.pending now)).sum) s.m_realTimeTasks [] h.1
    (fun t ht => absurd ht (List.not_mem_nil t))
  obtain ⟨hg1, hg2⟩ := tickTaskLoop_forall GameTimeClockTask.gt
    (GameTimeClockTask.due (advanceGameTicks now s).1)
    (GameTimeClockTask.rearm skipMissed (advanceGameTicks now s).1) (fun t => t.hndl ≠ hndl)
    (fun t t1 h1 h2 => by
      show t1.hndl ≠ hndl
      rw [gameTime_hndl_rearm skipMissed _ t t1 h1]
      exact h2)
    ((s.m_gameTimeTasks.map (GameTimeClockTask.pending (advanceGameTicks now s).1)).sum)
    s.m_gameTimeTasks [] h.2 (fun t ht => absurd ht (List.not_mem_nil t))
  exact ⟨hr2, hg2, hr1, hg1⟩

/-- A handle that no stored task carries is not fired by any number of calls of
`tick` and is not carried by any stored task afterwards. -/
theorem tickAll_not_fired (skipMissed : Bool) (nows : List TimePoint) (s : GameClock)
    (hndl : ClockTaskHndl) (h : holdsTask s hndl = false) :
    (∀ t ∈ (tickAll skipMissed nows s).firedRealTime, t.hndl ≠ hndl) ∧
      (∀ t ∈ (tickAll skipMissed nows s).firedGameTime, t.hndl ≠ hndl) ∧
      holdsTask (tickAll skipMissed nows s).clock hndl = false := by
  induction nows generalizing s with
  | nil => exact ⟨fun t ht => absurd ht (List.not_mem_nil t),
      fun t ht => absurd ht (List.not_mem_nil t), h⟩
  | cons now nows ih =>
    obtain ⟨h1, h2, h3⟩ := tick_not_fired skipMissed now s hndl h
    obtain ⟨i1, i2, i3⟩ := ih (tick skipMissed now s).clock h3
    refine ⟨?_, ?_, i3⟩
    · intro t ht
      rcases List.mem_append.mp ht with ht | ht
      · exact h1 t ht
      · exact i1 t ht
    · intro t ht
      rcases List.mem_append.mp ht with ht | ht
      · exact h2 t ht
      · exact i2 t ht

/-- The result of `removeClockTask` tells whether the handle was held. -/
theorem removeClockTask_fst (s : GameClock) (hndl : ClockTaskHndl) :
    (removeClockTask s hndl).1 = holdsTask s hndl := by
  unfold removeClockTask holdsTask
  rw [remove_fst, remove_fst]
  split_ifs with h
  · rw [h]
    rfl
  · rw [Bool.not_eq_true] at h
    rw [h]
    rfl

/-- The call `removeClockTask` takes exactly one task with the handle out of the
stores, if there is one. -/
theorem tasksWithHandle_removeClockTask (s : GameClock) (hndl : ClockTaskHndl) :
    tasksWithHandle (removeClockTask s hndl).2 hndl = tasksWithHandle s hndl - 1 := by
  unfold removeClockTask tasksWithHandle
  rw [remove_fst]
  split_ifs with h
  · simp only
    rw [countP_remove]
    have : 0 < s.m_realTimeTasks.countP (fun t => t.hndl == hndl) := by
      rw [List.countP_pos_iff]
      exact List.any_eq_true.mp h
    omega
  · simp only
    rw [countP_remove]
    rw [Bool.not_eq_true] at h
    rw [(any_eq_false_iff_countP _ _).mp h]
    omega

/-- A handle is not held exactly when the number of tasks that carry it is 0. -/
theorem holdsTask_eq_false_iff_tasksWithHandle (s : GameClock) (hndl : ClockTaskHndl) :
    holdsTask s hndl = false ↔ tasksWithHandle s hndl = 0 := by
  unfold holdsTask tasksWithHandle
  rw [Bool.or_eq_false_iff, any_eq_false_iff_countP, any_eq_false_iff_countP]
  omega

/-- The call `removeClockTask` with a handle that is not held returns false and
leaves the clock as it is. -/
theorem removeClockTask_unknown (s : GameClock) (hndl : ClockTaskHndl)
    (h : holdsTask s hndl = false) : removeClockTask s hndl = (false, s) := by
  unfold holdsTask at h
  rw [Bool.or_eq_false_iff] at h
  unfold removeClockTask
  rw [remove_of_not_any _ _ _ _ h.1, remove_of_not_any _ _ _ _ h.2]
  rfl

/-- The number of stored tasks that carry a handle is the number of times the
handle occurs among the handles of the stores. -/
theorem tasksWithHandle_eq_count (s : GameClock) (hndl : ClockTaskHndl) :
    tasksWithHandle s hndl = (handlesOf s).count hndl := by
  unfold tasksWithHandle handlesOf
  rw [List.count_append, List.count_eq_countP, List.count_eq_countP, List.countP_map,
    List.countP_map]
  rfl

/-- The handles of a store after `remove` are among the handles it had. -/
theorem remove_handles {Task : Type} (comp : Task → Task → Bool)
    (hndlOf : Task → ClockTaskHndl) (q : List Task) (hndl : ClockTaskHndl) :
    ((remove comp hndlOf q hndl).2.map hndlOf).Subperm (q.map hndlOf) := by
  unfold remove
  split_ifs
  · exact ((makeHeap_perm comp _).map hndlOf).subperm.trans
      ((List.eraseP_sublist q).map hndlOf).subperm
  · exact List.Subperm.refl _

end GameClock

namespace GameClock

/-- A clock whose stored handles are among those of a clock with unique
handles, with a handle counter that is not below, has unique handles. -/
theorem handlesUnique_of_subperm {s s1 : GameClock} (h : HandlesUnique s)
    (hsub : (handlesOf s1).Subperm (handlesOf s))
    (hle : s.m_unique_handle ≤ s1.m_unique_handle) : HandlesUnique s1 :=
  ⟨List.nodup_iff_count_le_one.mpr fun a =>
      (hsub.count_le a).trans (List.nodup_iff_count_le_one.mp h.1 a),
    fun x hx => (h.2 x (hsub.subset hx)).trans hle⟩

/-- A clock that holds one more task than a clock with unique handles, under
the next handle, has unique handles. -/
theorem handlesUnique_of_perm_cons {s s1 : GameClock} (h : HandlesUnique s)
    (hp : (handlesOf s1).Perm (nextHandle s.m_unique_handle :: handlesOf s))
    (hc : s1.m_unique_handle = nextHandle s.m_unique_handle) : HandlesUnique s1 := by
  have hfresh : nextHandle s.m_unique_handle ∉ handlesOf s := by
    intro hmem
    have := h.2 _ hmem
    unfold nextHandle at this
    exact absurd this (Nat.not_succ_le_self _)
  refine ⟨hp.nodup_iff.mpr (List.nodup_cons.mpr ⟨hfresh, h.1⟩), ?_⟩
  intro x hx
  rw [hc]
  rcases List.mem_cons.mp (hp.mem_iff.mp hx) with hx | hx
  · rw [hx]
  · exact (h.2 x hx).trans (Nat.le_succ _)

/-- A fresh clock has unique handles. -/
theorem init_handlesUnique (start : TimePoint) : HandlesUnique (init start) :=
  ⟨List.nodup_nil, fun _ hx => absurd hx (List.not_mem_nil _)⟩

/-- Every call of a public member function keeps the handles unique. -/
theorem call_handlesUnique (skipMissed : Bool) (s : GameClock) (op : Call)
    (h : HandlesUnique s) : HandlesUnique (call skipMissed s op) := by
  cases op with
  | addRealTimeClockTask now cbk delay period =>
    simp only [call, addRealTimeClockTask]
    split_ifs
    · exact h
    · exact handlesUnique_of_perm_cons h
        (((push_perm RealTimeClockTask.gt _ _).map RealTimeClockTask.hndl).append_right _) rfl
  | addGameTimeClockTask cbk delay period =>
    exact handlesUnique_of_perm_cons h
      ((((push_perm GameTimeClockTask.gt _ _).map GameTimeClockTask.hndl).append_left _).trans
        List.perm_middle) rfl
  | setGameClockSpeed speedFactor =>
    simp only [call, setGameClockSpeed]
    split_ifs
    · exact h
    · exact h
  | clear => exact ⟨List.nodup_nil, fun _ hx => absurd hx (List.not_mem_nil _)⟩
  | removeClockTask hndl =>
    refine handlesUnique_of_subperm h ?_ ?_
    · simp only [call, removeClockTask]
      split_ifs
      · exact (List.subperm_append_right _).mpr (remove_handles _ _ _ _)
      · exact (List.subperm_append_left _).mpr (remove_handles _ _ _ _)
    · simp only [call, removeClockTask]
      split_ifs <;> exact le_refl _
  | tick now =>
    refine handlesUnique_of_subperm h ?_ (le_refl _)
    exact ((List.subperm_append_right _).mpr
        (tickTaskLoop_handles _ _ _ RealTimeClockTask.hndl
          (realTime_hndl_rearm skipMissed now) _ _ _)).trans
      ((List.subperm_append_left _).mpr
        (tickTaskLoop_handles _ _ _ GameTimeClockTask.hndl
          (gameTime_hndl_rearm skipMissed _) _ _ _))

/-- Every sequence of calls keeps the handles unique. -/
theorem callAll_handlesUnique (skipMissed : Bool) (s : GameClock) (ops : List Call)
    (h : HandlesUnique s) : HandlesUnique (callAll skipMissed s ops) := by
  induction ops generalizing s with
  | nil => exact h
  | cons op ops ih => exact ih _ (call_handlesUnique skipMissed s op h)

/-- After `removeClockTask(h)` on a clock with unique handles no task with
handle `h` is held. -/
theorem holdsTask_removeClockTask (s : GameClock) (h : ClockTaskHndl) (hs : HandlesUnique s) :
    holdsTask (removeClockTask s h).2 h = false := by
  rw [holdsTask_eq_false_iff_tasksWithHandle, tasksWithHandle_removeClockTask,
    tasksWithHandle_eq_count]
  have := List.nodup_iff_count_le_one.mp hs.1 h
  omega

/-- C4: for every handle `h` and every clock state, that is the state of a
clock after any sequence of calls of its public member functions,
`removeClockTask(h)` returns true if and only if a task with handle `h` was
held in the real-time store or the game-time store; after it returns no task
with handle `h` is held in either store and no later `tick` fires one; for a
handle that is not held it returns false and the clock, with both stores, is
unchanged. This holds under both accounts of re-arming (`skipMissed`). -/
theorem removeClockTask_spec (skipMissed : Bool) (start : TimePoint) (ops : List Call)
    (h : ClockTaskHndl) :
    ((removeClockTask (callAll skipMissed (init start) ops) h).1 = true ↔
      holdsTask (callAll skipMissed (init start) ops) h = true) ∧
    holdsTask (removeClockTask (callAll skipMissed (init start) ops) h).2 h = false ∧
    (∀ nows : List TimePoint,
      (∀ t ∈ (tickAll skipMissed nows
          (removeClockTask (callAll skipMissed (init start) ops) h).2).firedRealTime,
        t.hndl ≠ h) ∧
      (∀ t ∈ (tickAll skipMissed nows
          (removeClockTask (callAll skipMissed (init start) ops) h).2).firedGameTime,
        t.hndl ≠ h)) ∧
    (holdsTask (callAll skipMissed (init start) ops) h = false →
      removeClockTask (callAll skipMissed (init start) ops) h
        = (false, callAll skipMissed (init start) ops)) := by
  have hs := callAll_handlesUnique skipMissed (init start) ops (init_handlesUnique start)
  have hnone := holdsTask_removeClockTask _ h hs
  refine ⟨by rw [removeClockTask_fst], hnone, fun nows => ?_, removeClockTask_unknown _ h⟩
  obtain ⟨h1, h2, _⟩ := tickAll_not_fired skipMissed nows _ h hnone
  exact ⟨h1, h2⟩

end GameClock

/-! ## The advance of the game-tick counter -/

namespace GameClock

/-- The loop that advances the game-tick counter runs `⌊elapsed / effective⌋`
times, whatever the bound on its iterations is from that number on. -/
theorem advanceLoop_eq (effective : ℚ) (hd : 0 < effective) (fuel : Nat) (elapsed : ℚ)
    (gameTicks : GameClockTime) (lastGameTickTime : TimePoint)
    (hfuel : ⌊elapsed / effective⌋.toNat ≤ fuel) :
    advanceLoop effective fuel elapsed gameTicks lastGameTickTime =
      (gameTicks + ⌊elapsed / effective⌋.toNat,
        lastGameTickTime + ⌊elapsed / effective⌋.toNat * effective) := by
  induction fuel generalizing elapsed gameTicks lastGameTickTime with
  | zero =>
    have h0 : ⌊elapsed / effective⌋.toNat = 0 := by omega
    rw [h0]
    simp [advanceLoop]
  | succ fuel ih =>
    unfold advanceLoop
    by_cases hge : elapsed ≥ effective
    · rw [if_pos hge]
      have hfl : ⌊(elapsed - effective) / effective⌋ = ⌊elapsed / effective⌋ - 1 := by
        rw [sub_div, div_self hd.ne.symm, Int.floor_sub_one]
      have hpos : 1 ≤ ⌊elapsed / effective⌋ := by
        rw [Int.le_floor, Int.cast_one, le_div_iff₀ hd, one_mul]
        exact hge
      have hn : ⌊elapsed / effective⌋.toNat = ⌊(elapsed - effective) / effective⌋.toNat + 1 := by
        rw [hfl]
        generalize ⌊elapsed / effective⌋ = z at hpos
        obtain ⟨n, hn⟩ := Int.eq_ofNat_of_zero_le (by omega : 0 ≤ z - 1)
        have hz : z = ((n + 1 : ℕ) : ℤ) := by push_cast; omega
        rw [hz]
        simp
      rw [ih _ _ _ (by rw [hn] at hfuel; exact Nat.le_of_succ_le_succ hfuel), hn]
      refine Prod.ext (by simp only; ring) ?_
      simp only
      push_cast
      ring
    · rw [if_neg hge]
      have h0 : ⌊elapsed / effective⌋.toNat = 0 := by
        rw [Int.toNat_eq_zero]
        have : elapsed / effective < 1 := by
          rw [div_lt_one hd]
          exact lt_of_not_ge hge
        have := Int.floor_le (elapsed / effective)
        by_contra hc
        have h1 : (1 : ℚ) ≤ ⌊elapsed / effective⌋ := by exact_mod_cast (by omega : 1 ≤ ⌊elapsed / effective⌋)
        linarith
      rw [h0]
      simp

/-- The advance of `tick`: the counter goes up by the number of whole tick
durations elapsed since the last advance, and the time of the last advance by
as many tick durations. -/
theorem advanceGameTicks_eq (now : TimePoint) (s : GameClock) :
    advanceGameTicks now s =
      (s.m_gameTicks + ⌊(now - s.m_lastGameTickTime) / s.m_gameTickDuration⌋.toNat,
        s.m_lastGameTickTime
          + ⌊(now - s.m_lastGameTickTime) / s.m_gameTickDuration⌋.toNat * s.m_gameTickDuration) :=
  advanceLoop_eq _ s.m_gameTickDuration_pos _ _ _ _ (le_refl _)

/-- When the loop that advances the game-tick counter stops, less than one
tick duration is left since the last advance: the bound on its iterations is
never what stops it. -/
theorem advanceGameTicks_done (now : TimePoint) (s : GameClock)
    (h : s.m_lastGameTickTime ≤ now) :
    now - (advanceGameTicks now s).2 < s.m_gameTickDuration := by
  have hd := s.m_gameTickDuration_pos
  rw [advanceGameTicks_eq]
  simp only
  have h0 : 0 ≤ (now - s.m_lastGameTickTime) / s.m_gameTickDuration :=
    div_nonneg (sub_nonneg.mpr h) hd.le
  have hcast : ((⌊(now - s.m_lastGameTickTime) / s.m_gameTickDuration⌋.toNat : ℕ) : ℚ)
      = ((⌊(now - s.m_lastGameTickTime) / s.m_gameTickDuration⌋ : ℤ) : ℚ) := by
    have := Int.toNat_of_nonneg (Int.floor_nonneg.mpr h0)
    exact_mod_cast this
  rw [hcast]
  have hlt := Int.lt_floor_add_one ((now - s.m_lastGameTickTime) / s.m_gameTickDuration)
  rw [div_lt_iff₀ hd] at hlt
  linarith

/-- The game-tick counter after `tick`. -/
theorem tick_gameTicks (skipMissed : Bool) (now : TimePoint) (s : GameClock) :
    (tick skipMissed now s).clock.m_gameTicks =
      s.m_gameTicks + ⌊(now - s.m_lastGameTickTime) / s.m_gameTickDuration⌋.toNat := by
  show (advanceGameTicks now s).1 = _
  rw [advanceGameTicks_eq]

/-- C5: with the default game tick duration of 2000 ms (speed factor 1.0), a
`tick` call made 2000 ms of wall time after the last advance increases the
game-tick counter by exactly 1; after `setGameClockSpeed(4.0)`, the same
2000 ms wall-clock interval increases it by exactly 4. The counter does not
depend on how periodic tasks are re-armed (`skipMissed`). -/
theorem speed_scaling (skipMissed : Bool) (s : GameClock)
    (hd : s.m_gameTickDuration = DefaultGameTickDuration) :
    (tick skipMissed (s.m_lastGameTickTime + 2000) s).clock.m_gameTicks = s.m_gameTicks + 1 ∧
    (tick skipMissed (s.m_lastGameTickTime + 2000) (setGameClockSpeed s 4)).clock.m_gameTicks
      = s.m_gameTicks + 4 := by
  constructor
  · rw [tick_gameTicks, hd]
    norm_num [DefaultGameTickDuration]
  · rw [tick_gameTicks]
    have h4 : (0 : ℚ) < 4 := by norm_num
    simp only [setGameClockSpeed, dif_pos h4]
    norm_num [DefaultGameTickDuration]
    rfl

/-- The hypothesis of `speed_scaling` holds for a fresh clock, started at
wall time 100: the call `tick` at 2100 takes the counter from 0 to 1, and to 4
at speed factor 4. -/
theorem speed_scaling_witness :
    (tick false 2100 (init 100)).clock.m_gameTicks = 1 ∧
    (tick false 2100 (setGameClockSpeed (init 100) 4)).clock.m_gameTicks = 4 := by
  have h := speed_scaling false (init 100) rfl
  have e : (init 100).m_lastGameTickTime + 2000 = 2100 := by
    show (100 : ℚ) + 2000 = 2100
    norm_num
  rw [e] at h
  exact h

end GameClock

/-! ## The loop of `tick` over a store -/

namespace GameClock

/-- One iteration of the loop on a store that holds a single task. -/
theorem tickTaskLoop_singleton {Task : Type} (comp : Task → Task → Bool) (due : Task → Bool)
    (rearm : Task → Option Task) (fuel : Nat) (t : Task) (fired : List Task) :
    tickTaskLoop comp due rearm (fuel + 1) [t] fired =
      if due t then
        match rearm t with
        | some next => tickTaskLoop comp due rearm fuel [next] (fired ++ [t])
        | none => tickTaskLoop comp due rearm fuel [] (fired ++ [t])
      else ([t], fired) := by
  rw [tickTaskLoop]
  rfl

/-- The loop on an empty store fires nothing. -/
theorem tickTaskLoop_nil {Task : Type} (comp : Task → Task → Bool) (due : Task → Bool)
    (rearm : Task → Option Task) (fuel : Nat) (fired : List Task) :
    tickTaskLoop comp due rearm fuel [] fired = ([], fired) := by
  cases fuel <;> rfl

/-- Advancing a due wake tick by one period takes one from the number of pending
invocations. -/
theorem pending_step_nat (now w p : ℕ) (hp : 0 < p) (hw : w ≤ now) :
    (if w + p ≤ now then (now - (w + p)) / p + 1 else 0) + 1 = (now - w) / p + 1 := by
  by_cases h1 : w + p ≤ now
  · rw [if_pos h1]
    have e : now - (w + p) = (now - w) - p * 1 := by omega
    rw [e, Nat.sub_mul_div _ _ _ (by omega)]
    have : 1 ≤ (now - w) / p := by
      rw [Nat.le_div_iff_mul_le hp]
      omega
    omega
  · rw [if_neg h1]
    have : (now - w) / p = 0 := Nat.div_eq_of_lt (by omega)
    omega

/-- Advancing a due wake time by one period takes one from the number of pending
invocations. -/
theorem pending_step_rat (now w p : ℚ) (hp : 0 < p) (hw : w ≤ now) :
    (if w + p ≤ now then ⌊(now - (w + p)) / p⌋.toNat + 1 else 0) + 1
      = ⌊(now - w) / p⌋.toNat + 1 := by
  have hq : 0 ≤ (now - w) / p := div_nonneg (sub_nonneg.mpr hw) hp.le
  by_cases h1 : w + p ≤ now
  · rw [if_pos h1]
    have e : (now - (w + p)) / p = (now - w) / p - 1 := by
      field_simp
      ring
    have h2 : 1 ≤ ⌊(now - w) / p⌋ := by
      rw [Int.le_floor, Int.cast_one, le_div_iff₀ hp]
      linarith
    rw [e, Int.floor_sub_one]
    generalize ⌊(now - w) / p⌋ = z at h2
    obtain ⟨n, hn⟩ := Int.eq_ofNat_of_zero_le (by omega : 0 ≤ z - 1)
    have hz : z = ((n + 1 : ℕ) : ℤ) := by push_cast; omega
    rw [hz]
    simp
  · rw [if_neg h1]
    have h2 : ⌊(now - w) / p⌋ = 0 := by
      rw [Int.floor_eq_iff]
      refine ⟨by simpa using hq, ?_⟩
      rw [Int.cast_zero, zero_add, div_lt_one hp]
      linarith
    rw [h2]
    rfl

/-- The wake tick that skips the missed periods is after `now`. -/
theorem lt_skip_nat (now w p : ℕ) (hp : 0 < p) (hw : w ≤ now) :
    now < w + ((now - w) / p + 1) * p := by
  have := Nat.lt_mul_div_succ (now - w) hp
  rw [Nat.mul_comm] at this
  omega

/-- The wake time that skips the missed periods is after `now`. -/
theorem lt_skip_rat (now w p : ℚ) (hp : 0 < p) :
    now < w + (⌊(now - w) / p⌋ + 1) * p := by
  have h := Int.lt_floor_add_one ((now - w) / p)
  rw [div_lt_iff₀ hp] at h
  linarith

/-- The continuation of a due game-time task has at least one invocation less
pending. -/
theorem gameTime_pending_rearm (skipMissed : Bool) (now : GameClockTime)
    (t t1 : GameTimeClockTask) (hd : t.due now = true) (hr : t.rearm skipMissed now = some t1) :
    t1.pending now + 1 ≤ t.pending now := by
  unfold GameTimeClockTask.due at hd
  rw [decide_eq_true_eq] at hd
  unfold GameTimeClockTask.rearm at hr
  split_ifs at hr with hp hs
  · rw [← Option.some.inj hr]
    unfold GameTimeClockTask.pending
    simp only
    rw [if_neg (not_le.mpr (lt_skip_nat now t.m_waketime t.m_period hp hd)), if_pos hd, if_pos hp]
    exact Nat.succ_le_succ (Nat.zero_le _)
  · rw [← Option.some.inj hr]
    unfold GameTimeClockTask.pending
    simp only
    rw [if_pos hd, if_pos hp, if_pos hp]
    exact le_of_eq (pending_step_nat now t.m_waketime t.m_period hp hd)

/-- The continuation of a due real-time task has at least one invocation less
pending. -/
theorem realTime_pending_rearm (skipMissed : Bool) (now : TimePoint)
    (t t1 : RealTimeClockTask) (hd : t.due now = true) (hr : t.rearm skipMissed now = some t1) :
    t1.pending now + 1 ≤ t.pending now := by
  unfold RealTimeClockTask.due at hd
  rw [decide_eq_true_eq] at hd
  unfold RealTimeClockTask.rearm at hr
  split_ifs at hr with hp hs
  · rw [← Option.some.inj hr]
    unfold RealTimeClockTask.pending
    simp only
    rw [if_neg (not_le.mpr (lt_skip_rat now t.m_waketime t.m_period hp)), if_pos hd, if_pos hp]
    exact Nat.succ_le_succ (Nat.zero_le _)
  · rw [← Option.some.inj hr]
    unfold RealTimeClockTask.pending
    simp only
    rw [if_pos hd, if_pos hp, if_pos hp]
    exact le_of_eq (pending_step_rat now t.m_waketime t.m_period hp hd)

/-- When a sum of natural numbers is 0, each summand is. -/
theorem sum_map_eq_zero_of_mem {Task : Type} (f : Task → Nat) (q : List Task)
    (h : (q.map f).sum = 0) (t : Task) (ht : t ∈ q) : f t = 0 := by
  induction q with
  | nil => exact absurd ht (List.not_mem_nil t)
  | cons a q ih =>
    rw [List.map_cons, List.sum_cons] at h
    rcases List.mem_cons.mp ht with rfl | h1
    · omega
    · exact ih (by omega) h1

/-- The loop of `tick` runs to its end when it is allowed as many iterations as
the tasks of the store have invocations pending: the top of the store it
leaves, if any, is not due. -/
theorem tickTaskLoop_done {Task : Type} (comp : Task → Task → Bool) (due : Task → Bool)
    (rearm : Task → Option Task) (pend : Task → Nat)
    (hdue : ∀ t, due t = true → 0 < pend t)
    (hrearm : ∀ t t1, due t = true → rearm t = some t1 → pend t1 + 1 ≤ pend t)
    (fuel : Nat) (q fired : List Task) (hfuel : (q.map pend).sum ≤ fuel) :
    ∀ t, top (tickTaskLoop comp due rearm fuel q fired).1 = some t → due t = false := by
  induction fuel generalizing q fired with
  | zero =>
    intro t ht
    have h0 := sum_map_eq_zero_of_mem pend q (by omega) t (mem_of_top ht)
    by_contra hc
    have := hdue t (by simpa using hc)
    omega
  | succ fuel ih =>
    unfold tickTaskLoop
    cases ht : top q with
    | none =>
      intro t h
      rw [ht] at h
      exact absurd h (by simp)
    | some task =>
      simp only
      have hsum : (q.map pend).sum = pend task + ((pop comp q).map pend).sum := by
        rw [((pop_perm comp ht).map pend).sum_eq, List.map_cons, List.sum_cons]
      by_cases hd : due task = true
      · rw [if_pos hd]
        have hpos := hdue task hd
        cases hr : rearm task with
        | none =>
          exact ih _ _ (by omega)
        | some next =>
          refine ih _ _ ?_
          rw [((push_perm comp (pop comp q) next).map pend).sum_eq, List.map_cons, List.sum_cons]
          have := hrearm task next hd hr
          omega
      · rw [if_neg hd]
        intro t h
        rw [ht] at h
        rw [← Option.some.inj h]
        simpa using hd

/-- The loop over the real-time store runs to its end: the top of the store
that `tickRealTimeTasks` leaves, if any, has a wake time after `now`. -/
theorem tickRealTimeTasks_done (skipMissed : Bool) (now : TimePoint)
    (q : List RealTimeClockTask) (t : RealTimeClockTask)
    (h : top (tickRealTimeTasks skipMissed now q).1 = some t) : now < t.m_waketime := by
  have := tickTaskLoop_done RealTimeClockTask.gt (RealTimeClockTask.due now)
    (RealTimeClockTask.rearm skipMissed now) (RealTimeClockTask.pending now)
    (fun t hd => by
      unfold RealTimeClockTask.due at hd
      rw [decide_eq_true_eq] at hd
      unfold RealTimeClockTask.pending
      rw [if_pos hd]
      split_ifs <;> exact Nat.succ_pos _)
    (realTime_pending_rearm skipMissed now) _ q [] (le_refl _) t h
  unfold RealTimeClockTask.due at this
  simpa using this

/-- The loop over the game-time store runs to its end: the top of the store
that `tickGameTimeTasks` leaves, if any, has a wake tick after `now`. -/
theorem tickGameTimeTasks_done (skipMissed : Bool) (now : GameClockTime)
    (q : List GameTimeClockTask) (t : GameTimeClockTask)
    (h : top (tickGameTimeTasks skipMissed now q).1 = some t) : now < t.m_waketime := by
  have := tickTaskLoop_done GameTimeClockTask.gt (GameTimeClockTask.due now)
    (GameTimeClockTask.rearm skipMissed now) (GameTimeClockTask.pending now)
    (fun t hd => by
      unfold GameTimeClockTask.due at hd
      rw [decide_eq_true_eq] at hd
      unfold GameTimeClockTask.pending
      rw [if_pos hd]
      split_ifs <;> exact Nat.succ_pos _)
    (gameTime_pending_rearm skipMissed now) _ q [] (le_refl _) t h
  unfold GameTimeClockTask.due at this
  simpa using this

end GameClock

namespace GameClock

/-- The loop leaves a store that holds a single task which is not due as it
is. -/
theorem tickTaskLoop_singleton_not_due {Task : Type} (comp : Task → Task → Bool)
    (due : Task → Bool) (rearm : Task → Option Task) (fuel : Nat) (t : Task)
    (fired : List Task) (h : due t = false) :
    tickTaskLoop comp due rearm fuel [t] fired = ([t], fired) := by
  cases fuel with
  | zero => rfl
  | succ fuel =>
    rw [tickTaskLoop_singleton, h]
    rfl

/-- A periodic game-time task alone in the store, re-armed one period at a
time: one pass of the loop at game tick `now` fires it once per period
boundary up to `now`, at the wake ticks `w, w + p, w + 2 p, ...`, and leaves
it queued one period after the last. -/
theorem tickTaskLoop_lone_periodic (now p : GameClockTime) (hp : 0 < p) (cbk : ClockCbk)
    (hndl : ClockTaskHndl) (n : Nat) (w : GameClockTime) (fired : List GameTimeClockTask)
    (hn : GameTimeClockTask.pending now ⟨cbk, w, p, hndl⟩ = n) :
    tickTaskLoop GameTimeClockTask.gt (GameTimeClockTask.due now)
        (GameTimeClockTask.rearm false now) n [⟨cbk, w, p, hndl⟩] fired =
      ([⟨cbk, w + n * p, p, hndl⟩],
        fired ++ (List.range n).map (fun i => ⟨cbk, w + i * p, p, hndl⟩)) := by
  induction n generalizing w fired with
  | zero => simp [tickTaskLoop]
  | succ n ih =>
    have hdue : GameTimeClockTask.due now ⟨cbk, w, p, hndl⟩ = true := by
      unfold GameTimeClockTask.pending at hn
      unfold GameTimeClockTask.due
      by_contra hc
      rw [decide_eq_true_eq] at hc
      rw [if_neg hc] at hn
      exact absurd hn (Nat.succ_ne_zero n).symm
    have hre : GameTimeClockTask.rearm false now ⟨cbk, w, p, hndl⟩
        = some ⟨cbk, w + p, p, hndl⟩ := by
      unfold GameTimeClockTask.rearm
      rw [if_pos hp, if_neg (by simp)]
    have hw : w ≤ now := by
      unfold GameTimeClockTask.due at hdue
      exact of_decide_eq_true hdue
    have hpend : GameTimeClockTask.pending now ⟨cbk, w + p, p, hndl⟩ + 1
        = GameTimeClockTask.pending now ⟨cbk, w, p, hndl⟩ := by
      unfold GameTimeClockTask.pending
      simp only
      rw [if_pos hw, if_pos hp, if_pos hp]
      exact pending_step_nat now w p hp hw
    rw [tickTaskLoop_singleton, if_pos hdue, hre]
    simp only
    rw [ih (w + p) _ (Nat.succ_injective (hpend.trans hn)), List.range_succ_eq_map,
      List.map_cons, List.map_map]
    refine Prod.ext ?_ ?_
    · simp only
      congr 2
      ring
    · simp only [List.append_assoc, List.singleton_append, Nat.zero_mul, Nat.add_zero]
      congr 2
      apply List.map_congr_left
      intro i _
      simp only [Function.comp, Nat.succ_eq_add_one]
      congr 1
      ring

/-- The pass of `tickGameTimeTasks` over a store that holds one periodic task
which is due, re-armed one period at a time: it fires at `w, w + p, ...` up to
`now`. -/
theorem tickGameTimeTasks_lone_periodic (now p : GameClockTime) (hp : 0 < p) (cbk : ClockCbk)
    (hndl : ClockTaskHndl) (w : GameClockTime) (hw : w ≤ now) :
    tickGameTimeTasks false now [⟨cbk, w, p, hndl⟩] =
      ([⟨cbk, w + ((now - w) / p + 1) * p, p, hndl⟩],
        (List.range ((now - w) / p + 1)).map (fun i => ⟨cbk, w + i * p, p, hndl⟩)) := by
  have hn : GameTimeClockTask.pending now ⟨cbk, w, p, hndl⟩ = (now - w) / p + 1 := by
    unfold GameTimeClockTask.pending
    rw [if_pos hw, if_pos hp]
  unfold tickGameTimeTasks
  simp only [List.map_cons, List.map_nil, List.sum_cons, List.sum_nil, Nat.add_zero]
  rw [hn, tickTaskLoop_lone_periodic now p hp cbk hndl _ w [] hn]
  rfl

/-- The pass of `tickGameTimeTasks` over a store that holds one periodic task
which is more than one period overdue, when missed periods are skipped: it
fires once and is queued at the first of `w + p, w + 2 p, ...` after `now`. -/
theorem tickGameTimeTasks_lone_periodic_skip (now p : GameClockTime) (hp : 0 < p)
    (cbk : ClockCbk) (hndl : ClockTaskHndl) (w : GameClockTime) (hw : p < now - w) :
    tickGameTimeTasks true now [⟨cbk, w, p, hndl⟩] =
      ([⟨cbk, w + ((now - w) / p + 1) * p, p, hndl⟩], [⟨cbk, w, p, hndl⟩]) := by
  have hwn : w ≤ now :=
    (Nat.sub_pos_iff_lt.mp (lt_of_le_of_lt (Nat.zero_le p) hw)).le
  have hn : GameTimeClockTask.pending now ⟨cbk, w, p, hndl⟩ = (now - w) / p + 1 := by
    unfold GameTimeClockTask.pending
    rw [if_pos hwn, if_pos hp]
  have hdue : GameTimeClockTask.due now ⟨cbk, w, p, hndl⟩ = true := decide_eq_true hwn
  have hre : GameTimeClockTask.rearm true now ⟨cbk, w, p, hndl⟩
      = some ⟨cbk, w + ((now - w) / p + 1) * p, p, hndl⟩ := by
    unfold GameTimeClockTask.rearm
    rw [if_pos hp, if_pos ⟨rfl, hw⟩]
  have hnot : GameTimeClockTask.due now ⟨cbk, w + ((now - w) / p + 1) * p, p, hndl⟩ = false :=
    decide_eq_false (not_le.mpr (lt_skip_nat now w p hp hwn))
  unfold tickGameTimeTasks
  simp only [List.map_cons, List.map_nil, List.sum_cons, List.sum_nil, Nat.add_zero]
  rw [hn, tickTaskLoop_singleton, if_pos hdue, hre]
  simp only
  rw [tickTaskLoop_singleton_not_due _ _ _ _ _ _ hnot]
  rfl

/-- The pass over a periodic task that is several periods overdue depends on
the account of re-arming. A game-time task is registered on a fresh clock with
delay 4 and period 4, and one `tick` takes the clock to game tick 20. Re-armed
one period at a time (3, 8 and the glossary of the specification) the task
fires five times, with wake-keys 4, 8, 12, 16, 20; with the missed periods
skipped (4.3) it fires once, with wake-key 4. Both leave it queued with
wake-key 24. -/
theorem periodic_pass_by_account (start : TimePoint) (cbk : ClockCbk) :
    (∀ skipMissed : Bool,
      (tick skipMissed (start + 20 * 2000) (addGameTimeClockTask (init start) cbk 4 4).2
        ).clock.m_gameTicks = 20) ∧
    (tick false (start + 20 * 2000) (addGameTimeClockTask (init start) cbk 4 4).2).firedGameTime
      = [⟨cbk, 4, 4, 1⟩, ⟨cbk, 8, 4, 1⟩, ⟨cbk, 12, 4, 1⟩, ⟨cbk, 16, 4, 1⟩, ⟨cbk, 20, 4, 1⟩] ∧
    (tick false (start + 20 * 2000) (addGameTimeClockTask (init start) cbk 4 4).2
      ).clock.m_gameTimeTasks = [⟨cbk, 24, 4, 1⟩] ∧
    (tick true (start + 20 * 2000) (addGameTimeClockTask (init start) cbk 4 4).2).firedGameTime
      = [⟨cbk, 4, 4, 1⟩] ∧
    (tick true (start + 20 * 2000) (addGameTimeClockTask (init start) cbk 4 4).2
      ).clock.m_gameTimeTasks = [⟨cbk, 24, 4, 1⟩] := by
  have hticks : (advanceGameTicks (start + 20 * 2000)
      (addGameTimeClockTask (init start) cbk 4 4).2).1 = 20 := by
    rw [advanceGameTicks_eq]
    show 0 + ⌊(start + 20 * 2000 - start) / (DefaultGameTickDuration : ℚ)⌋.toNat = 20
    norm_num [DefaultGameTickDuration]
    rfl
  have hq : (addGameTimeClockTask (init start) cbk 4 4).2.m_gameTimeTasks
      = [⟨cbk, 4, 4, 1⟩] := rfl
  have hloop := tickGameTimeTasks_lone_periodic 20 4 (by decide) cbk 1 4 (by decide)
  have hskip := tickGameTimeTasks_lone_periodic_skip 20 4 (by decide) cbk 1 4 (by decide)
  refine ⟨fun _ => hticks, ?_, ?_, ?_, ?_⟩
  · show (tickGameTimeTasks false (advanceGameTicks _ _).1 _).2 = _
    rw [hticks, hq, hloop]
    rfl
  · show (tickGameTimeTasks false (advanceGameTicks _ _).1 _).1 = _
    rw [hticks, hq, hloop]
  · show (tickGameTimeTasks true (advanceGameTicks _ _).1 _).2 = _
    rw [hticks, hq, hskip]
  · show (tickGameTimeTasks true (advanceGameTicks _ _).1 _).1 = _
    rw [hticks, hq, hskip]

/-- A `tick` on a clock with empty stores fires nothing. -/
theorem tick_fired_of_empty (skipMissed : Bool) (now : TimePoint) (s : GameClock)
    (hr : s.m_realTimeTasks = []) (hg : s.m_gameTimeTasks = []) :
    (tick skipMissed now s).firedRealTime = [] ∧ (tick skipMissed now s).firedGameTime = [] := by
  constructor
  · show (tickRealTimeTasks skipMissed now s.m_realTimeTasks).2 = []
    rw [hr]
    unfold tickRealTimeTasks
    rw [tickTaskLoop_nil]
  · show (tickGameTimeTasks skipMissed (advanceGameTicks now s).1 s.m_gameTimeTasks).2 = []
    rw [hg]
    unfold tickGameTimeTasks
    rw [tickTaskLoop_nil]

/-- C4 on the scenario of the specification: a game-time task is registered on
a fresh clock with a delay of 10 ticks (it gets handle 1) and is removed before
any tick; `removeClockTask` returns true, the handle is no longer held, and the
`tick` that takes the clock to game tick 15 fires nothing. -/
theorem removeClockTask_spec_witness :
    (removeClockTask (addGameTimeClockTask (init 0) 7 10 0).2 1).1 = true ∧
    holdsTask (removeClockTask (addGameTimeClockTask (init 0) 7 10 0).2 1).2 1 = false ∧
    (∀ t ∈ (tickAll false [30000]
        (removeClockTask (addGameTimeClockTask (init 0) 7 10 0).2 1).2).firedGameTime,
      t.hndl ≠ 1) ∧
    (tick false 30000 (removeClockTask (addGameTimeClockTask (init 0) 7 10 0).2 1).2
      ).clock.m_gameTicks = 15 ∧
    (tick false 30000 (removeClockTask (addGameTimeClockTask (init 0) 7 10 0).2 1).2
      ).firedGameTime = [] := by
  have h := removeClockTask_spec false 0 [.addGameTimeClockTask 7 10 0] 1
  refine ⟨h.1.mpr (by decide), h.2.1, (h.2.2.1 [30000]).2, ?_, ?_⟩
  · rw [tick_gameTicks]
    show 0 + ⌊((30000 : ℚ) - 0) / (DefaultGameTickDuration : ℚ)⌋.toNat = 15
    norm_num [DefaultGameTickDuration]
    rfl
  · exact (tick_fired_of_empty false 30000 _ (by decide) (by decide)).2

end GameClock

end Cytopia
